import Mathlib

/-!
Steamroller: a shallow embedding of `steamroller.go`.

The transform walks the plan of every job of a Concourse pipeline and inlines
the task configs and scripts that Task steps reference through a resource map.

Conventions of the embedding

* Go strings are Lean strings; the library functions of `strings` and
  `path/filepath` that the source calls are written over the character list
  of the string, following the Go documentation, for a Unix host
  (`os.PathSeparator = '/'`).  The byte slice `resourcePath[2:]` drops two
  characters; it is taken only behind `strings.HasPrefix(resourcePath, "~")`,
  so it is out of range exactly when the root is the one-character string `~`.
* The filesystem, the environment variable `HOME` and the YAML parser are the
  fields of `Env`.
* Every run returns the list of file paths it handed to `ioutil.ReadFile`, in
  order, together with its outcome: a normal return, a `log.Fatalf` (the
  message is logged and the process exits with status 1), or a runtime panic.
-/

namespace Steamroller

/-! ## Outcomes and read traces -/

/-- How a call ends: it returns a value, it ends the process through
`log.Fatalf`, or it panics. -/
inductive Outcome (α : Type) where
  | ok (a : α)
  | fatal (msg : String)
  | panic (msg : String)
  deriving Repr

/-- A run: the paths given to `ioutil.ReadFile`, in order, and the outcome. -/
structure Run (α : Type) where
  reads : List String
  outcome : Outcome α
  deriving Repr

/-- Sequencing of two runs: the second starts from the value the first
returned and its reads follow the first's; a fatal exit or a panic of the
first ends the run. -/
def Run.andThen {α β : Type} (r : Run α) (k : α → Run β) : Run β :=
  match r.outcome with
  | .ok a => ⟨r.reads ++ (k a).reads, (k a).outcome⟩
  | .fatal msg => ⟨r.reads, .fatal msg⟩
  | .panic msg => ⟨r.reads, .panic msg⟩

/-- A run that reads nothing and returns `a`. -/
def Run.ret {α : Type} (a : α) : Run α := ⟨[], .ok a⟩

/-! ## The data of `atc` that the source touches -/

/-- The type `atc.TaskRunConfig`: the command of a task. `Rest` stands for the
fields the transform never reads or writes. -/
structure TaskRunConfig where
  Path : String
  Args : List String
  Rest : String
  deriving DecidableEq, Repr

/-- The type `atc.TaskConfig`; `Rest` stands for every field other than `Run`. -/
structure TaskConfig where
  Run : TaskRunConfig
  Rest : String
  deriving DecidableEq, Repr

/-- The type `atc.PlanConfig`, with the fields the source reads: `Aggregate`
and `Do` are pointers to step sequences (`none` is the nil pointer), `Task` is
the task name, `TaskConfigPath` the path of an external task config,
`TaskConfig` a pointer to an inline task config, `Rest` every other field. -/
inductive PlanConfig where
  | mk (Aggregate : Option (List PlanConfig)) (Do : Option (List PlanConfig))
      (Task : String) (TaskConfigPath : String) (TaskConfig : Option TaskConfig)
      (Rest : String)
  deriving Repr

/-- The field `Aggregate` of a step. -/
def PlanConfig.Aggregate : PlanConfig → Option (List PlanConfig)
  | .mk a _ _ _ _ _ => a

/-- The field `Do` of a step. -/
def PlanConfig.Do : PlanConfig → Option (List PlanConfig)
  | .mk _ d _ _ _ _ => d

/-- The field `Task` of a step. -/
def PlanConfig.Task : PlanConfig → String
  | .mk _ _ t _ _ _ => t

/-- The field `TaskConfigPath` of a step. -/
def PlanConfig.TaskConfigPath : PlanConfig → String
  | .mk _ _ _ p _ _ => p

/-- The field `TaskConfig` of a step. -/
def PlanConfig.TaskConfig : PlanConfig → Option TaskConfig
  | .mk _ _ _ _ c _ => c

/-- The remaining fields of a step. -/
def PlanConfig.Rest : PlanConfig → String
  | .mk _ _ _ _ _ r => r

/-- The type `atc.JobConfig`: a plan and the remaining fields. -/
structure JobConfig where
  Plan : List PlanConfig
  Rest : String

/-- The type `atc.Config`: the jobs and the remaining fields. -/
structure Config where
  Jobs : List JobConfig
  Rest : String

/-- The world a run reads from. `ReadFile` is `ioutil.ReadFile` (contents or the
text of the I/O error), `Unmarshal` is `yaml.Unmarshal` into a zero
`atc.TaskConfig` (the config or the text of the error), `HOME` is
`os.Getenv("HOME")`. -/
structure Env where
  HOME : String
  ReadFile : String → Except String String
  Unmarshal : String → Except String TaskConfig

/-! ## The Go library functions the source calls -/

/-- The constant `os.PathSeparator` on a Unix host. -/
def PathSeparator : Char := '/'

/-- Splits a character list at every occurrence of `sep`; the result is never
empty (`strings.Split` with a one-character separator). -/
def splitOn (sep : Char) : List Char → List (List Char)
  | [] => [[]]
  | c :: cs =>
    if c = sep then [] :: splitOn sep cs
    else
      match splitOn sep cs with
      | [] => [[c]]
      | p :: ps => (c :: p) :: ps

/-- The Go call `strings.Split(s, string(sep))`. -/
def stringsSplit (s : String) (sep : Char) : List String :=
  (splitOn sep s.data).map String.mk

/-- The Go call `strings.Contains(s, string(c))`. -/
def stringsContains (s : String) (c : Char) : Bool :=
  s.data.contains c

/-- The Go call `strings.HasPrefix(s, p)`. -/
def stringsHasPrefix (s p : String) : Bool :=
  p.data.isPrefixOf s.data

/-- Removes every non-overlapping occurrence of the non-empty list `old`,
scanning from the left; `skip` counts the characters of a match still to be
dropped. -/
def removeAll (old : List Char) : Nat → List Char → List Char
  | _, [] => []
  | skip + 1, _ :: cs => removeAll old skip cs
  | 0, c :: cs =>
    if old.isPrefixOf (c :: cs) then removeAll old (old.length - 1) cs
    else c :: removeAll old 0 cs

/-- The Go call `strings.Replace(s, old, "", -1)`: every non-overlapping
occurrence of `old` is removed; with an empty `old` the empty replacement is
inserted between the characters, which gives `s` back. -/
def stringsReplaceAllEmpty (s old : String) : String :=
  if old.data = [] then s else String.mk (removeAll old.data 0 s.data)

/-- One step of `filepath.Clean` over the path elements kept so far (innermost
first): empty and `.` elements are dropped, `..` removes the element before it
when there is one, is dropped at the root, and is kept otherwise. -/
def cleanStep (rooted : Bool) (kept : List (List Char)) (e : List Char) :
    List (List Char) :=
  if e = [] ∨ e = ['.'] then kept
  else if e = ['.', '.'] then
    match kept with
    | [] => if rooted then [] else [e]
    | k :: ks => if k = ['.', '.'] then e :: k :: ks else ks
  else e :: kept

/-- The Go function `filepath.Clean` on a Unix host. -/
def filepathClean (path : String) : String :=
  let rooted : Bool := path.data.head? = some PathSeparator
  let kept := ((splitOn PathSeparator path.data).foldl (cleanStep rooted) []).reverse
  let body := [PathSeparator].intercalate kept
  let out := if rooted then PathSeparator :: body else body
  if out = [] then "." else String.mk out

/-- The Go function `filepath.Join`: the elements from the first non-empty
one on are joined with the separator and cleaned; the result is empty when
every element is empty. -/
def filepathJoin : List String → String
  | [] => ""
  | e :: es =>
    if e = "" then filepathJoin es
    else filepathClean (String.mk ([PathSeparator].intercalate ((e :: es).map String.data)))

/-- The Go function `filepath.Ext`: the suffix beginning at the final dot of
the final path element, empty when that element has no dot. The scan runs over
the reversed path and `acc` holds the characters already passed. -/
def extScan (acc : List Char) : List Char → List Char
  | [] => []
  | c :: cs =>
    if c = PathSeparator then []
    else if c = '.' then c :: acc
    else extScan (c :: acc) cs

/-- The Go call `filepath.Ext(path)`. -/
def filepathExt (path : String) : String :=
  String.mk (extScan [] path.data.reverse)

/-! ## Resource maps -/

/-- A Go `map[string]string`: `none` is the nil map, `some kvs` a map holding
the bindings of `kvs` (the first binding of a key is the one the map holds). -/
abbrev ResourceMap := Option (List (String × String))

/-- The two-valued lookup `v, ok := m[k]`; a nil map holds no key. -/
def ResourceMap.get (m : ResourceMap) (k : String) : Option String :=
  match m with
  | none => none
  | some kvs => kvs.lookup k

/-! ## loadBytes -/

/-- The function `loadBytes` (steamroller.go, lines 118-133). The outcome
`ok (.error e)` is the returned error `e`, `ok (.ok b)` the returned bytes. -/
def loadBytes (env : Env) (resourceMap : ResourceMap) (path : String) :
    Run (Except String String) :=
  match stringsSplit path PathSeparator with
  | [] => ⟨[], .panic "index out of range [0] with length 0"⟩
  | resourceRoot :: _ =>
    match resourceMap.get resourceRoot with
    | none => ⟨[], .ok (.error ("no resource map provided for " ++ path))⟩
    | some resourcePath =>
      if resourcePath = "" then
        ⟨[], .ok (.error ("no resource map provided for " ++ path))⟩
      else if stringsHasPrefix resourcePath "~" then
        if resourcePath.length < 2 then
          ⟨[], .panic "slice bounds out of range [2:1]"⟩
        else
          let resourcePath := filepathJoin [env.HOME, String.mk (resourcePath.data.drop 2)]
          let actualPath :=
            filepathJoin [resourcePath, stringsReplaceAllEmpty path resourceRoot]
          ⟨[actualPath], .ok (env.ReadFile actualPath)⟩
      else
        let actualPath :=
          filepathJoin [resourcePath, stringsReplaceAllEmpty path resourceRoot]
        ⟨[actualPath], .ok (env.ReadFile actualPath)⟩

/-! ## The interpreter registry and the script template -/

/-- The type `interpreter` (steamroller.go, lines 18-25). -/
structure interpreter where
  Path : String
  Args : List String
  Template : String
  deriving DecidableEq, Repr

/-- The type `Script` (steamroller.go, lines 135-137). -/
structure Script where
  Contents : String

/-- The constant `shTemplate` (steamroller.go, lines 139-145). -/
def shTemplate : String :=
  "cat > task.sh <<\x27EO_SH\x27\n\x7b\x7b.Contents\x7d\x7d\nEO_SH\n\nchmod +x task.sh\n./task.sh\n"

/-- The table `interpreters` (steamroller.go, lines 28-34). -/
def interpreters : List (String × interpreter) :=
  [ ("", ⟨"sh", ["-c"], shTemplate⟩),
    (".sh", ⟨"sh", ["-c"], shTemplate⟩),
    (".rb", ⟨"ruby", ["-e"], ""⟩),
    (".py", ⟨"python", ["-c"], ""⟩),
    (".js", ⟨"node", ["-e"], ""⟩) ]

/-- The one-valued map read `interpreters[ext]`: a missing key gives the zero
value of `interpreter`. -/
def interpretersGet (ext : String) : interpreter :=
  (interpreters.lookup ext).getD ⟨"", [], ""⟩

/-- The action `.Contents` of the template language, with its delimiters. -/
def contentsAction : List Char :=
  "\x7b\x7b.Contents\x7d\x7d".data

/-- Renders a template whose only action is `.Contents`: the text is copied
and every occurrence of the action is replaced by `contents`, unescaped;
`skip` counts the characters of an action still to be passed. -/
def renderFrom (contents : List Char) : Nat → List Char → List Char
  | _, [] => []
  | skip + 1, _ :: cs => renderFrom contents skip cs
  | 0, c :: cs =>
    if contentsAction.isPrefixOf (c :: cs) then
      contents ++ renderFrom contents (contentsAction.length - 1) cs
    else c :: renderFrom contents 0 cs

/-- Parsing the template `tmpl` with `text/template` and executing it on
`script` into a buffer, for a template whose only action is `.Contents`. -/
def templateExecute (tmpl : String) (script : Script) : String :=
  String.mk (renderFrom script.Contents.data 0 tmpl.data)

/-! ## flattenPlanConfig -/

/-- The Task case of `flattenPlanConfig` (steamroller.go, lines 62-113): the
step that the loop stores back at its index. -/
def flattenTask (env : Env) (files : ResourceMap) (step : PlanConfig) : Run PlanConfig :=
  match step with
  | .mk a d task taskConfigPath taskConfig rest =>
    if taskConfigPath ≠ "" then
      if files = none then
        ⟨[], .fatal ("empty resource map; cannot find " ++ taskConfigPath)⟩
      else
        (loadBytes env files taskConfigPath).andThen fun loaded =>
        match loaded with
        | .error err =>
          ⟨[], .fatal ("failed to read task config at " ++ taskConfigPath ++ ": " ++ err)⟩
        | .ok taskConfigBytes =>
          match env.Unmarshal taskConfigBytes with
          | .error err =>
            ⟨[], .fatal ("failed to unmarshal task config at " ++ taskConfigPath ++ ": " ++ err)⟩
          | .ok parsed =>
            let path := parsed.Run.Path
            if stringsContains path '/' then
              (loadBytes env files path).andThen fun loadedScript =>
              match loadedScript with
              | .error err =>
                ⟨[], .fatal ("failed to read task config at " ++ path ++ ": " ++ err)⟩
              | .ok scriptBytes =>
                let interp := interpretersGet (filepathExt path)
                let args :=
                  if interp.Template ≠ "" then
                    interp.Args ++ [templateExecute interp.Template ⟨scriptBytes⟩]
                  else interp.Args ++ [scriptBytes]
                Run.ret (.mk a d task "" (some
                  { parsed with Run := { parsed.Run with Path := interp.Path, Args := args } })
                  rest)
            else
              Run.ret (.mk a d task "" (some parsed) rest)
    else Run.ret (.mk a d task taskConfigPath taskConfig rest)

mutual
/-- The body of the loop of `flattenPlanConfig` (steamroller.go, lines 55-114)
for one step: the step found at its index when the iteration ends. -/
def flattenStep (env : Env) (files : ResourceMap) : PlanConfig → Run PlanConfig
  | .mk (some seq) d task taskConfigPath taskConfig rest =>
    (flattenPlanConfig env files seq).andThen fun seq2 =>
      Run.ret (.mk (some seq2) d task taskConfigPath taskConfig rest)
  | .mk none (some seq) task taskConfigPath taskConfig rest =>
    (flattenPlanConfig env files seq).andThen fun seq2 =>
      Run.ret (.mk none (some seq2) task taskConfigPath taskConfig rest)
  | .mk none none task taskConfigPath taskConfig rest =>
    if task ≠ "" then flattenTask env files (.mk none none task taskConfigPath taskConfig rest)
    else Run.ret (.mk none none task taskConfigPath taskConfig rest)
/-- The function `flattenPlanConfig` (steamroller.go, lines 53-116): the
contents of the slice `jobPlan` when the call returns. -/
def flattenPlanConfig (env : Env) (files : ResourceMap) : List PlanConfig → Run (List PlanConfig)
  | [] => Run.ret []
  | step :: rest =>
    (flattenStep env files step).andThen fun step2 =>
      (flattenPlanConfig env files rest).andThen fun rest2 =>
        Run.ret (step2 :: rest2)
end

/-- The loop of `Steamroll` (steamroller.go, lines 43-48) over the jobs. -/
def steamrollJobs (env : Env) (files : ResourceMap) : List JobConfig → Run (List JobConfig)
  | [] => Run.ret []
  | job :: jobs =>
    (flattenPlanConfig env files job.Plan).andThen fun newPlan =>
      (steamrollJobs env files jobs).andThen fun jobs2 =>
        Run.ret ({ job with Plan := newPlan } :: jobs2)

/-- The function `Steamroll` (steamroller.go, lines 40-51): the returned
config and the returned error (`none` is the nil error). -/
def Steamroll (env : Env) (files : ResourceMap) (atcConfig : Config) :
    Run (Config × Option String) :=
  (steamrollJobs env files atcConfig.Jobs).andThen fun jobs =>
    Run.ret ({ atcConfig with Jobs := jobs }, none)

/-! ## Vocabulary of the properties -/

/-- The case of the switch of `flattenPlanConfig` that a step falls in; the
cases are tried in the order Aggregate, Do, Task. -/
inductive StepKind where
  | Aggregate
  | Do
  | Task
  | other
  deriving DecidableEq, Repr

/-- The kind of a step, by the order of the cases of the switch. -/
def PlanConfig.kind : PlanConfig → StepKind
  | .mk (some _) _ _ _ _ _ => .Aggregate
  | .mk none (some _) _ _ _ _ => .Do
  | .mk none none task _ _ _ => if task ≠ "" then .Task else .other

mutual
/-- The test `p` holds of a step and of every step below it in the tree,
through the `Aggregate` and the `Do` sequence of every step. -/
def everywhereStep (p : PlanConfig → Bool) : PlanConfig → Bool
  | .mk none none t c tc r => p (.mk none none t c tc r)
  | .mk (some xs) none t c tc r => p (.mk (some xs) none t c tc r) && everywhere p xs
  | .mk none (some ys) t c tc r => p (.mk none (some ys) t c tc r) && everywhere p ys
  | .mk (some xs) (some ys) t c tc r =>
    p (.mk (some xs) (some ys) t c tc r) && everywhere p xs && everywhere p ys
/-- The test `p` holds of every step of a sequence and of every step below. -/
def everywhere (p : PlanConfig → Bool) : List PlanConfig → Bool
  | [] => true
  | s :: ss => everywhereStep p s && everywhere p ss
end

mutual
/-- The test `p` holds of a step and of every step that the walk of
`flattenPlanConfig` visits below it: the `Aggregate` sequence of an Aggregate
step, the `Do` sequence of a Do step. -/
def walkedStep (p : PlanConfig → Bool) : PlanConfig → Bool
  | .mk (some xs) d t c tc r => p (.mk (some xs) d t c tc r) && walked p xs
  | .mk none (some ys) t c tc r => p (.mk none (some ys) t c tc r) && walked p ys
  | .mk none none t c tc r => p (.mk none none t c tc r)
/-- The test `p` holds of every step that the walk visits in a sequence. -/
def walked (p : PlanConfig → Bool) : List PlanConfig → Bool
  | [] => true
  | s :: ss => walkedStep p s && walked p ss
end

mutual
/-- The test `p` holds of a step or of a step that the walk of
`flattenPlanConfig` visits below it. -/
def visitsStep (p : PlanConfig → Bool) : PlanConfig → Bool
  | .mk (some xs) d t c tc r => p (.mk (some xs) d t c tc r) || visits p xs
  | .mk none (some ys) t c tc r => p (.mk none (some ys) t c tc r) || visits p ys
  | .mk none none t c tc r => p (.mk none none t c tc r)
/-- The walk of `flattenPlanConfig` over a sequence visits a step of which the
test `p` holds. -/
def visits (p : PlanConfig → Bool) : List PlanConfig → Bool
  | [] => false
  | s :: ss => visitsStep p s || visits p ss
end

/-- A step with a non-empty task name has an empty external config path. -/
def namedTaskInlined (s : PlanConfig) : Bool :=
  s.Task = "" || s.TaskConfigPath = ""

/-- A step of kind Task has an empty external config path. -/
def taskInlined (s : PlanConfig) : Bool :=
  s.kind ≠ .Task || s.TaskConfigPath = ""

/-- A step of kind Task with a non-empty external config path. -/
def needsConfig (s : PlanConfig) : Bool :=
  s.kind = .Task && s.TaskConfigPath ≠ ""

/-- The text of a path before its first separator, the whole path when it has
none. -/
def beforeFirstSeparator (path : String) : String :=
  String.mk (path.data.takeWhile fun c => c ≠ PathSeparator)

/-- A step of kind Task with a non-empty external config path whose resource
name is not a key of the map `kvs`. -/
def unmappedTask (kvs : List (String × String)) (s : PlanConfig) : Bool :=
  needsConfig s && (kvs.lookup (beforeFirstSeparator s.TaskConfigPath)).isNone

mutual
/-- Two steps have the same shape: the same kind, the same task name, an
`Aggregate` sequence in both or in neither and a `Do` sequence in both or in
neither, and those sequences have the same shape. -/
def sameShapeStep : PlanConfig → PlanConfig → Bool
  | .mk a d t c tc r, s2 =>
    (PlanConfig.mk a d t c tc r).kind = s2.kind && t = s2.Task &&
      sameShapeOpt a s2.Aggregate && sameShapeOpt d s2.Do
/-- Two optional sequences are both absent, or both present with the same shape. -/
def sameShapeOpt : Option (List PlanConfig) → Option (List PlanConfig) → Bool
  | none, none => true
  | some xs, some ys => sameShape xs ys
  | none, some _ => false
  | some _, none => false
/-- Two sequences have the same length and, position by position, steps of
the same shape. -/
def sameShape : List PlanConfig → List PlanConfig → Bool
  | [], [] => true
  | s :: ss, s2 :: ss2 => sameShapeStep s s2 && sameShape ss ss2
  | [], _ :: _ => false
  | _ :: _, [] => false
end

/-- The path that `loadBytes` hands to the file read for a root that needs no
home expansion: the root joined with the path from which every occurrence of
the resource name is removed. -/
def actualPathOf (root path : String) : String :=
  filepathJoin [root, stringsReplaceAllEmpty path (beforeFirstSeparator path)]

/-! ## A small world for running the code -/

/-- A checkout of the resource `ci` under `/opt/ci`: three task configs, two
scripts, and a parser that knows the three configs. -/
def demoEnv : Env where
  HOME := "/home/ci"
  ReadFile := fun p =>
    if p = "/opt/ci/tasks/make.yml" then .ok "run:\n  path: make\n  args: [all]"
    else if p = "/opt/ci/tasks/build.yml" then
      .ok "run:\n  path: ci/scripts/build.sh\n  args: [fast]"
    else if p = "/opt/ci/tasks/check.yml" then .ok "run:\n  path: ci/scripts/check.py"
    else if p = "/opt/ci/scripts/build.sh" then .ok "echo hi"
    else if p = "/opt/ci/scripts/check.py" then .ok "print(1)"
    else if p = "/opt/ci/tasks/ci.sh" then .ok "echo ci"
    else if p = "/opt/scripts/build.sh" then .ok "make all"
    else .error ("open " ++ p ++ ": no such file or directory")
  Unmarshal := fun text =>
    if text = "run:\n  path: make\n  args: [all]" then .ok ⟨⟨"make", ["all"], ""⟩, "linux"⟩
    else if text = "run:\n  path: ci/scripts/build.sh\n  args: [fast]" then
      .ok ⟨⟨"ci/scripts/build.sh", ["fast"], ""⟩, "linux"⟩
    else if text = "run:\n  path: ci/scripts/check.py" then
      .ok ⟨⟨"ci/scripts/check.py", [], ""⟩, "linux"⟩
    else .error "yaml: unmarshal errors"

/-- The resource map binding `ci` to `/opt/ci`. -/
def demoFiles : ResourceMap := some [("ci", "/opt/ci")]

/-- A Task step named `name` with the external config path `file`. -/
def taskFile (name file : String) : PlanConfig :=
  .mk none none name file none ""

/-- A plan with a get step, an Aggregate holding a Do holding a Task with an
external config, and a Task with an inline config. -/
def demoPlan : List PlanConfig :=
  [ .mk none none "" "" none "get: ci",
    .mk (some [.mk none (some [taskFile "build" "ci/tasks/build.yml"]) "" "" none ""])
      none "" "" none "",
    .mk none none "lint" "" (some ⟨⟨"ci/scripts/lint.sh", [], ""⟩, "linux"⟩) "" ]

/-- The text that `shTemplate` renders for the script `echo hi`. -/
def demoRendered : String :=
  "cat > task.sh <<\x27EO_SH\x27\necho hi\nEO_SH\n\nchmod +x task.sh\n./task.sh\n"

/-- The plan `demoPlan` after flattening. -/
def demoFlat : List PlanConfig :=
  [ .mk none none "" "" none "get: ci",
    .mk (some [.mk none (some [.mk none none "build" ""
        (some ⟨⟨"sh", ["-c", demoRendered], ""⟩, "linux"⟩) ""]) "" "" none ""])
      none "" "" none "",
    .mk none none "lint" "" (some ⟨⟨"ci/scripts/lint.sh", [], ""⟩, "linux"⟩) "" ]

/-- An Aggregate step that also carries a task name and an external config
path. -/
def namedContainer : PlanConfig :=
  .mk (some []) none "build" "ci/tasks/build.yml" none ""

/-- A pipeline with one job whose plan holds a Task with the external config
`tasks/build.yml`; the resource name `tasks` is not a key of `demoFiles`. -/
def unmappedPipeline : Config :=
  ⟨[⟨[taskFile "build" "tasks/build.yml"], "name: build"⟩], "resources: []"⟩

/-! ## Vocabulary of the later properties -/

/-- A step carries no task config, or one whose `Run.Path` is one of the
executables of the registry and holds no separator. -/
def knownInterpreter (s : PlanConfig) : Bool :=
  match s.TaskConfig with
  | none => true
  | some cfg =>
    decide (cfg.Run.Path ∈ ["sh", "ruby", "python", "node"]) && !stringsContains cfg.Run.Path '/'

/-- A step carries a task config whose `Run.Path` holds no separator. -/
def bareRunPath (s : PlanConfig) : Bool :=
  match s.TaskConfig with
  | none => false
  | some cfg => !stringsContains cfg.Run.Path '/'

mutual
/-- The relation `p` holds between an input step and an output step, and
between the steps that the walk visits below the input step and the steps at
the same places below the output step. -/
def walkedPairStep (p : PlanConfig → PlanConfig → Prop) : PlanConfig → PlanConfig → Prop
  | .mk (some xs) d t c tc r, s2 =>
    p (.mk (some xs) d t c tc r) s2 ∧
      ∃ xs2, s2.Aggregate = some xs2 ∧ walkedPair p xs xs2
  | .mk none (some ys) t c tc r, s2 =>
    p (.mk none (some ys) t c tc r) s2 ∧
      ∃ ys2, s2.Do = some ys2 ∧ walkedPair p ys ys2
  | .mk none none t c tc r, s2 => p (.mk none none t c tc r) s2
/-- The relation `p` holds, place by place, between the steps that the walk
visits in an input sequence and the steps of an output sequence of the same
length. -/
def walkedPair (p : PlanConfig → PlanConfig → Prop) : List PlanConfig → List PlanConfig → Prop
  | [], [] => True
  | s :: ss, s2 :: ss2 => walkedPairStep p s s2 ∧ walkedPair p ss ss2
  | [], _ :: _ => False
  | _ :: _, [] => False
end

/-- The frame of one step: a container keeps every field but the sequence it
is walked through, a Task without an external config path and a step of
another kind are kept whole, and nothing is said of a Task with an external
config path. -/
def framedBy (s s2 : PlanConfig) : Prop :=
  match s.kind with
  | .Aggregate =>
    s2.Aggregate.isSome = true ∧ s2.Do = s.Do ∧ s2.Task = s.Task ∧
      s2.TaskConfigPath = s.TaskConfigPath ∧ s2.TaskConfig = s.TaskConfig ∧ s2.Rest = s.Rest
  | .Do =>
    s2.Aggregate = none ∧ s2.Do.isSome = true ∧ s2.Task = s.Task ∧
      s2.TaskConfigPath = s.TaskConfigPath ∧ s2.TaskConfig = s.TaskConfig ∧ s2.Rest = s.Rest
  | .Task => s.TaskConfigPath = "" → s2 = s
  | .other => s2 = s

/-- The output of a Task with an external config path carries a task config
whose `Run.Path` holds no separator. -/
def resolvedBare (s s2 : PlanConfig) : Prop :=
  needsConfig s = true → bareRunPath s2 = true

mutual
/-- The depth of a step: the number of sequences nested below it, through
either of its two sequence fields. -/
def depthStep : PlanConfig → Nat
  | .mk a d _ _ _ _ => max (depthOpt a) (depthOpt d)
/-- The depth of an optional sequence; a nil pointer has depth zero. -/
def depthOpt : Option (List PlanConfig) → Nat
  | none => 0
  | some xs => depthSeq xs + 1
/-- The depth of a sequence: the greatest depth of its steps. -/
def depthSeq : List PlanConfig → Nat
  | [] => 0
  | s :: ss => max (depthStep s) (depthSeq ss)
end

/-- Sequencing of a run with a continuation that may exceed a depth bound:
the continuation is entered only when the run returned. -/
def Run.andThenWithin {α β : Type} (r : Run α) (k : α → Option (Run β)) : Option (Run β) :=
  match r.outcome with
  | .ok a => (k a).map fun r2 => ⟨r.reads ++ r2.reads, r2.outcome⟩
  | .fatal msg => some ⟨r.reads, .fatal msg⟩
  | .panic msg => some ⟨r.reads, .panic msg⟩

mutual
/-- The loop body of `flattenPlanConfig` with a bound on the depth of the
nested calls: each call on the sequence of an Aggregate or Do step uses one
unit of `fuel`, and `none` says that a call was needed with none left. -/
def flattenStepWithin (env : Env) (files : ResourceMap) :
    Nat → PlanConfig → Option (Run PlanConfig)
  | 0, .mk (some _) _ _ _ _ _ => none
  | fuel + 1, .mk (some seq) d task taskConfigPath taskConfig rest =>
    (flattenPlanConfigWithin env files fuel seq).map fun run =>
      run.andThen fun seq2 => Run.ret (.mk (some seq2) d task taskConfigPath taskConfig rest)
  | 0, .mk none (some _) _ _ _ _ => none
  | fuel + 1, .mk none (some seq) task taskConfigPath taskConfig rest =>
    (flattenPlanConfigWithin env files fuel seq).map fun run =>
      run.andThen fun seq2 => Run.ret (.mk none (some seq2) task taskConfigPath taskConfig rest)
  | _, .mk none none task taskConfigPath taskConfig rest =>
    if task ≠ "" then
      some (flattenTask env files (.mk none none task taskConfigPath taskConfig rest))
    else some (Run.ret (.mk none none task taskConfigPath taskConfig rest))
/-- The function `flattenPlanConfig` with a bound on the depth of the nested
calls; the loop over the steps of one sequence uses no fuel. -/
def flattenPlanConfigWithin (env : Env) (files : ResourceMap) :
    Nat → List PlanConfig → Option (Run (List PlanConfig))
  | _, [] => some (Run.ret [])
  | fuel, step :: rest =>
    (flattenStepWithin env files fuel step).bind fun run =>
      run.andThenWithin fun step2 =>
        (flattenPlanConfigWithin env files fuel rest).map fun runRest =>
          runRest.andThen fun rest2 => Run.ret (step2 :: rest2)
end

/-! ## More of the small world -/

/-- A checkout of `ci` with a task whose script has the extension `.pl`, which
the registry does not hold, and a task whose command is the absolute path
`/bin/sh`. -/
def perlEnv : Env where
  HOME := "/home/ci"
  ReadFile := fun p =>
    if p = "/opt/ci/tasks/report.yml" then .ok "run:\n  path: ci/scripts/report.pl\n  args: [all]"
    else if p = "/opt/ci/scripts/report.pl" then .ok "print 1;"
    else if p = "/opt/ci/tasks/shell.yml" then .ok "run:\n  path: /bin/sh"
    else if p = "/home/ci/foo/x" then .ok "home file"
    else .error ("open " ++ p ++ ": no such file or directory")
  Unmarshal := fun text =>
    if text = "run:\n  path: ci/scripts/report.pl\n  args: [all]" then
      .ok ⟨⟨"ci/scripts/report.pl", ["all"], ""⟩, "linux"⟩
    else if text = "run:\n  path: /bin/sh" then .ok ⟨⟨"/bin/sh", [], ""⟩, "linux"⟩
    else .error "yaml: unmarshal errors"

/-- A Task with an inline config whose `Run.Path` is a script path. -/
def lintTask : PlanConfig :=
  .mk none none "lint" "" (some ⟨⟨"ci/scripts/lint.sh", [], ""⟩, "linux"⟩) ""

/-- A pipeline with two jobs: the plan `demoPlan` and a plan of one Task. -/
def demoPipeline : Config :=
  ⟨[⟨demoPlan, "name: build"⟩, ⟨[taskFile "make" "ci/tasks/make.yml"], "name: make"⟩],
    "resources: [ci]"⟩

/-- The pipeline `demoPipeline` after `Steamroll`. -/
def demoPipelineFlat : Config :=
  ⟨[⟨demoFlat, "name: build"⟩,
      ⟨[.mk none none "make" "" (some ⟨⟨"make", ["all"], ""⟩, "linux"⟩) ""], "name: make"⟩],
    "resources: [ci]"⟩

/-! ## Basic facts about runs -/

theorem Run.andThen_ret {α β : Type} (a : α) (k : α → Run β) :
    (Run.ret a).andThen k = k a := by
  simp [Run.andThen, Run.ret]

theorem Run.andThen_mk_ok {α β : Type} (rd : List String) (a : α) (k : α → Run β) :
    (Run.mk rd (.ok a)).andThen k = ⟨rd ++ (k a).reads, (k a).outcome⟩ := by
  simp [Run.andThen]

theorem Run.andThen_mk_fatal {α β : Type} (rd : List String) (msg : String) (k : α → Run β) :
    (Run.mk rd (.fatal msg)).andThen k = ⟨rd, .fatal msg⟩ := by
  simp [Run.andThen]

theorem Run.andThen_mk_panic {α β : Type} (rd : List String) (msg : String) (k : α → Run β) :
    (Run.mk rd (.panic msg)).andThen k = ⟨rd, .panic msg⟩ := by
  simp [Run.andThen]

/-- A sequenced run returns exactly when both parts return. -/
theorem Run.andThen_eq_ok {α β : Type} (r : Run α) (k : α → Run β) (rd : List String) (b : β) :
    r.andThen k = ⟨rd, .ok b⟩ ↔
      ∃ r1 a r2, r = ⟨r1, .ok a⟩ ∧ k a = ⟨r2, .ok b⟩ ∧ rd = r1 ++ r2 := by
  obtain ⟨r1, o⟩ := r
  cases o with
  | ok a =>
    rw [Run.andThen_mk_ok]
    constructor
    · intro h
      injection h with h1 h2
      refine ⟨r1, a, (k a).reads, rfl, ?_, h1.symm⟩
      cases hk : k a with
      | mk kr ko => rw [hk] at h2; simp at h2; simp [h2]
    · rintro ⟨r1', a', r2, h, hk, hrd⟩
      injection h with h1 h2
      injection h2 with h2
      subst h1 h2
      rw [hk, hrd]
  | fatal msg =>
    rw [Run.andThen_mk_fatal]
    constructor
    · intro h; injection h with _ h2; cases h2
    · rintro ⟨_, _, _, h, _, _⟩; injection h with _ h2; cases h2
  | panic msg =>
    rw [Run.andThen_mk_panic]
    constructor
    · intro h; injection h with _ h2; cases h2
    · rintro ⟨_, _, _, h, _, _⟩; injection h with _ h2; cases h2

theorem Run.ret_eq_ok {α : Type} (a b : α) (rd : List String) :
    Run.ret a = ⟨rd, .ok b⟩ ↔ rd = [] ∧ a = b := by
  simp [Run.ret, eq_comm]

/-- Induction over a step tree: a property of steps and one of sequences hold
everywhere once they pass through the constructors. -/
theorem PlanConfig.induction {P : PlanConfig → Prop} {Q : List PlanConfig → Prop}
    (hnil : Q [])
    (hcons : ∀ s ss, P s → Q ss → Q (s :: ss))
    (hmk : ∀ a d t c tc r, (∀ xs, a = some xs → Q xs) → (∀ ys, d = some ys → Q ys) →
      P (.mk a d t c tc r)) :
    (∀ s, P s) ∧ (∀ ss, Q ss) := by
  have hstep : ∀ s, P s := fun s =>
    PlanConfig.rec (motive_1 := P) (motive_2 := fun o => ∀ xs, o = some xs → Q xs)
      (motive_3 := Q)
      (fun a d t c tc r ha hd => hmk a d t c tc r ha hd)
      (fun xs h => by cases h)
      (fun val hval xs h => by cases h; exact hval)
      hnil
      (fun s ss hs hss => hcons s ss hs hss)
      s
  refine ⟨hstep, fun ss => ?_⟩
  induction ss with
  | nil => exact hnil
  | cons s ss ih => exact hcons s ss (hstep s) ih

/-! ## Inversion of successful runs -/

theorem flattenPlanConfig_nil (env : Env) (files : ResourceMap) :
    flattenPlanConfig env files [] = ⟨[], .ok []⟩ := by
  rw [flattenPlanConfig]; rfl

/-- A run over a non-empty sequence returns exactly when the run on the head
and the run on the tail both return. -/
theorem flattenPlanConfig_cons_ok (env : Env) (files : ResourceMap) (s : PlanConfig)
    (ss out : List PlanConfig) (rd : List String) :
    flattenPlanConfig env files (s :: ss) = ⟨rd, .ok out⟩ ↔
      ∃ r1 s2 r2 ss2, flattenStep env files s = ⟨r1, .ok s2⟩ ∧
        flattenPlanConfig env files ss = ⟨r2, .ok ss2⟩ ∧ out = s2 :: ss2 ∧ rd = r1 ++ r2 := by
  rw [flattenPlanConfig, Run.andThen_eq_ok]
  constructor
  · rintro ⟨r1, s2, r2, h1, h2, hrd⟩
    rw [Run.andThen_eq_ok] at h2
    obtain ⟨r3, ss2, r4, h3, h4, hrd2⟩ := h2
    rw [Run.ret_eq_ok] at h4
    obtain ⟨h5, h6⟩ := h4
    subst h5
    exact ⟨r1, s2, r3, ss2, h1, h3, h6.symm, by simp [hrd, hrd2]⟩
  · rintro ⟨r1, s2, r2, ss2, h1, h2, hout, hrd⟩
    refine ⟨r1, s2, r2, h1, ?_, hrd⟩
    rw [h2, Run.andThen_mk_ok, hout]
    simp [Run.ret]

/-- An Aggregate step returns exactly when its sequence does; only the
sequence is replaced. -/
theorem flattenStep_aggregate_ok (env : Env) (files : ResourceMap) (xs : List PlanConfig)
    (d : Option (List PlanConfig)) (t c : String) (tc : Option TaskConfig) (r : String)
    (s2 : PlanConfig) (rd : List String) :
    flattenStep env files (.mk (some xs) d t c tc r) = ⟨rd, .ok s2⟩ ↔
      ∃ xs2, flattenPlanConfig env files xs = ⟨rd, .ok xs2⟩ ∧ s2 = .mk (some xs2) d t c tc r := by
  rw [flattenStep, Run.andThen_eq_ok]
  constructor
  · rintro ⟨r1, xs2, r2, h1, h2, hrd⟩
    rw [Run.ret_eq_ok] at h2
    obtain ⟨h3, h4⟩ := h2
    subst h3
    exact ⟨xs2, by simpa [hrd] using h1, h4.symm⟩
  · rintro ⟨xs2, h1, h2⟩
    exact ⟨rd, xs2, [], h1, by simp [Run.ret, h2], by simp⟩

/-- A Do step returns exactly when its sequence does; only the sequence is
replaced. -/
theorem flattenStep_do_ok (env : Env) (files : ResourceMap) (ys : List PlanConfig)
    (t c : String) (tc : Option TaskConfig) (r : String)
    (s2 : PlanConfig) (rd : List String) :
    flattenStep env files (.mk none (some ys) t c tc r) = ⟨rd, .ok s2⟩ ↔
      ∃ ys2, flattenPlanConfig env files ys = ⟨rd, .ok ys2⟩ ∧ s2 = .mk none (some ys2) t c tc r := by
  rw [flattenStep, Run.andThen_eq_ok]
  constructor
  · rintro ⟨r1, ys2, r2, h1, h2, hrd⟩
    rw [Run.ret_eq_ok] at h2
    obtain ⟨h3, h4⟩ := h2
    subst h3
    exact ⟨ys2, by simpa [hrd] using h1, h4.symm⟩
  · rintro ⟨ys2, h1, h2⟩
    exact ⟨rd, ys2, [], h1, by simp [Run.ret, h2], by simp⟩

/-- A Task step without an external config path is stored back as it is. -/
theorem flattenTask_inline (env : Env) (files : ResourceMap) (a d : Option (List PlanConfig))
    (t : String) (tc : Option TaskConfig) (r : String) :
    flattenTask env files (.mk a d t "" tc r) = ⟨[], .ok (.mk a d t "" tc r)⟩ := by
  simp [flattenTask, Run.ret]

/-- A Task step that returns has its config path cleared, and when it had a
path it carries a task config; the other fields are those of the input. -/
theorem flattenTask_ok (env : Env) (files : ResourceMap) (a d : Option (List PlanConfig))
    (t c : String) (tc : Option TaskConfig) (r : String) (s2 : PlanConfig) (rd : List String)
    (h : flattenTask env files (.mk a d t c tc r) = ⟨rd, .ok s2⟩) :
    (c = "" ∧ rd = [] ∧ s2 = .mk a d t c tc r) ∨
      (c ≠ "" ∧ ∃ tc2, s2 = .mk a d t "" (some tc2) r) := by
  by_cases hc : c = ""
  · subst hc
    rw [flattenTask_inline] at h
    injection h with h1 h2
    injection h2 with h2
    exact Or.inl ⟨rfl, h1.symm, h2.symm⟩
  · refine Or.inr ⟨hc, ?_⟩
    simp only [flattenTask, ne_eq, hc, not_false_eq_true, ↓reduceIte] at h
    split at h
    · injection h with _ h2; cases h2
    · rw [Run.andThen_eq_ok] at h
      obtain ⟨r1, loaded, r2, _, h2, _⟩ := h
      cases loaded with
      | error e => injection h2 with _ h3; cases h3
      | ok bytes =>
        simp only at h2
        cases hu : env.Unmarshal bytes with
        | error e => rw [hu] at h2; injection h2 with _ h3; cases h3
        | ok parsed =>
          rw [hu] at h2
          simp only at h2
          split at h2
          · rw [Run.andThen_eq_ok] at h2
            obtain ⟨r3, loaded2, r4, _, h4, _⟩ := h2
            cases loaded2 with
            | error e => injection h4 with _ h5; cases h5
            | ok script =>
              simp only [Run.ret_eq_ok] at h4
              exact ⟨_, h4.2.symm⟩
          · simp only [Run.ret_eq_ok] at h2
            exact ⟨_, h2.2.symm⟩

/-! ## Shape and inlining of the output -/

theorem sameShape_refl_all :
    (∀ s, sameShapeStep s s = true) ∧ (∀ ss, sameShape ss ss = true) := by
  apply PlanConfig.induction
  · simp [sameShape]
  · intro s ss hs hss
    simp [sameShape, hs, hss]
  · intro a d t c tc r ha hd
    have hopt : ∀ o : Option (List PlanConfig), (∀ xs, o = some xs → sameShape xs xs = true) →
        sameShapeOpt o o = true := by
      intro o ho
      cases o with
      | none => simp [sameShapeOpt]
      | some xs => simpa [sameShapeOpt] using ho xs rfl
    simp [sameShapeStep, PlanConfig.Task, PlanConfig.Aggregate, PlanConfig.Do, hopt a ha,
      hopt d hd]

theorem sameShapeOpt_refl (o : Option (List PlanConfig)) : sameShapeOpt o o = true := by
  cases o with
  | none => simp [sameShapeOpt]
  | some xs => simpa [sameShapeOpt] using sameShape_refl_all.2 xs

/-- Sequences of the same shape have the same length. -/
theorem sameShape_length : ∀ (xs ys : List PlanConfig), sameShape xs ys = true →
    xs.length = ys.length
  | [], [], _ => rfl
  | _ :: xs, _ :: ys, h => by
    simp only [sameShape, Bool.and_eq_true] at h
    simp [sameShape_length xs ys h.2]
  | [], _ :: _, h => by simp [sameShape] at h
  | _ :: _, [], h => by simp [sameShape] at h

/-- Steps at the same position of two sequences of the same shape have the
same shape. -/
theorem sameShape_get : ∀ (xs ys : List PlanConfig), sameShape xs ys = true →
    ∀ (i : Nat) (s s2 : PlanConfig), xs.get? i = some s → ys.get? i = some s2 →
      sameShapeStep s s2 = true
  | [], [], _, i, s, s2, h1, _ => by simp at h1
  | x :: xs, y :: ys, h, i, s, s2, h1, h2 => by
    simp only [sameShape, Bool.and_eq_true] at h
    cases i with
    | zero =>
      simp only [List.get?_cons_zero, Option.some.injEq] at h1 h2
      subst h1 h2
      exact h.1
    | succ i =>
      simp only [List.get?_cons_succ] at h1 h2
      exact sameShape_get xs ys h.2 i s s2 h1 h2
  | [], _ :: _, h, _, _, _, _, _ => by simp [sameShape] at h
  | _ :: _, [], h, _, _, _, _, _ => by simp [sameShape] at h

/-- On every returning run the output has the shape of the input and every
visited step of kind Task has an empty config path. -/
theorem flatten_ok_all (env : Env) (files : ResourceMap) :
    (∀ s rd s2, flattenStep env files s = ⟨rd, .ok s2⟩ →
      walkedStep taskInlined s2 = true ∧ sameShapeStep s s2 = true) ∧
    (∀ ss rd ss2, flattenPlanConfig env files ss = ⟨rd, .ok ss2⟩ →
      walked taskInlined ss2 = true ∧ sameShape ss ss2 = true) := by
  apply PlanConfig.induction
  · intro rd ss2 h
    rw [flattenPlanConfig_nil] at h
    injection h with _ h2
    injection h2 with h2
    subst h2
    simp [walked, sameShape]
  · intro s ss hs hss rd out h
    rw [flattenPlanConfig_cons_ok] at h
    obtain ⟨r1, s2, r2, ss2, h1, h2, hout, _⟩ := h
    subst hout
    have := hs r1 s2 h1
    have := hss r2 ss2 h2
    simp_all [walked, sameShape]
  · intro a d t c tc r ha hd rd s2 h
    cases a with
    | some xs =>
      rw [flattenStep_aggregate_ok] at h
      obtain ⟨xs2, h1, h2⟩ := h
      subst h2
      have := ha xs rfl rd xs2 h1
      simp [walkedStep, sameShapeStep, taskInlined, PlanConfig.kind, PlanConfig.Task,
        PlanConfig.Aggregate, PlanConfig.Do, sameShapeOpt, sameShapeOpt_refl, this]
    | none =>
      cases d with
      | some ys =>
        rw [flattenStep_do_ok] at h
        obtain ⟨ys2, h1, h2⟩ := h
        subst h2
        have := hd ys rfl rd ys2 h1
        simp [walkedStep, sameShapeStep, taskInlined, PlanConfig.kind, PlanConfig.Task,
          PlanConfig.Aggregate, PlanConfig.Do, sameShapeOpt, this]
      | none =>
        rw [flattenStep] at h
        by_cases ht : t = ""
        · subst ht
          simp only [ne_eq, not_true_eq_false, ↓reduceIte, Run.ret_eq_ok] at h
          rw [← h.2]
          simp [walkedStep, sameShapeStep, taskInlined, PlanConfig.kind, PlanConfig.Task,
            PlanConfig.Aggregate, PlanConfig.Do, sameShapeOpt]
        · simp only [ne_eq, ht, not_false_eq_true, ↓reduceIte] at h
          rcases flattenTask_ok env files none none t c tc r s2 rd h with
            ⟨hc, _, hs2⟩ | ⟨_, tc2, hs2⟩
          · subst hs2 hc
            simp [walkedStep, sameShapeStep, taskInlined, PlanConfig.kind, PlanConfig.Task,
              PlanConfig.Aggregate, PlanConfig.Do, sameShapeOpt, PlanConfig.TaskConfigPath]
          · subst hs2
            simp [walkedStep, sameShapeStep, taskInlined, PlanConfig.kind, PlanConfig.Task,
              PlanConfig.Aggregate, PlanConfig.Do, sameShapeOpt, PlanConfig.TaskConfigPath]

/-- A sequence in which every visited step of kind Task has an empty config
path is returned as it is, and no file is read. -/
theorem flatten_inlined_all (env : Env) (files : ResourceMap) :
    (∀ s, walkedStep taskInlined s = true → flattenStep env files s = ⟨[], .ok s⟩) ∧
    (∀ ss, walked taskInlined ss = true → flattenPlanConfig env files ss = ⟨[], .ok ss⟩) := by
  apply PlanConfig.induction
  · intro _
    exact flattenPlanConfig_nil env files
  · intro s ss hs hss h
    simp only [walked, Bool.and_eq_true] at h
    rw [flattenPlanConfig_cons_ok]
    exact ⟨[], s, [], ss, hs h.1, hss h.2, rfl, rfl⟩
  · intro a d t c tc r ha hd h
    cases a with
    | some xs =>
      simp only [walkedStep, Bool.and_eq_true] at h
      rw [flattenStep_aggregate_ok]
      exact ⟨xs, ha xs rfl h.2, rfl⟩
    | none =>
      cases d with
      | some ys =>
        simp only [walkedStep, Bool.and_eq_true] at h
        rw [flattenStep_do_ok]
        exact ⟨ys, hd ys rfl h.2, rfl⟩
      | none =>
        rw [flattenStep]
        by_cases ht : t = ""
        · simp [ht, Run.ret]
        · have hc : c = "" := by
            simpa [walkedStep, taskInlined, PlanConfig.kind, ht, PlanConfig.TaskConfigPath]
              using h
          subst hc
          simp [ht, flattenTask_inline]

/-! ## loadBytes -/

theorem splitOn_eq_cons (sep : Char) (l : List Char) :
    ∃ rest, splitOn sep l = (l.takeWhile fun c => c ≠ sep) :: rest := by
  induction l with
  | nil => exact ⟨[], by simp [splitOn]⟩
  | cons c cs ih =>
    obtain ⟨rest, hrest⟩ := ih
    by_cases hc : c = sep
    · exact ⟨splitOn sep cs, by simp [splitOn, hc]⟩
    · exact ⟨rest, by simp [splitOn, hc, hrest]⟩

/-- The first element of the split path is the text before the first separator. -/
theorem stringsSplit_eq_cons (path : String) :
    ∃ rest, stringsSplit path PathSeparator = beforeFirstSeparator path :: rest := by
  obtain ⟨rest, h⟩ := splitOn_eq_cons PathSeparator path.data
  exact ⟨rest.map String.mk, by simp [stringsSplit, beforeFirstSeparator, h]⟩

theorem loadBytes_unmapped (env : Env) (rm : ResourceMap) (path : String)
    (h : rm.get (beforeFirstSeparator path) = none ∨ rm.get (beforeFirstSeparator path) = some "") :
    loadBytes env rm path = ⟨[], .ok (.error ("no resource map provided for " ++ path))⟩ := by
  obtain ⟨rest, hs⟩ := stringsSplit_eq_cons path
  rcases h with h | h <;> simp [loadBytes, hs, h]

theorem loadBytes_plain (env : Env) (rm : ResourceMap) (path root : String)
    (h : rm.get (beforeFirstSeparator path) = some root) (hne : root ≠ "")
    (htilde : stringsHasPrefix root "~" = false) :
    loadBytes env rm path =
      ⟨[actualPathOf root path], .ok (env.ReadFile (actualPathOf root path))⟩ := by
  obtain ⟨rest, hs⟩ := stringsSplit_eq_cons path
  simp [loadBytes, hs, h, hne, htilde, actualPathOf]

/-- With a resource mapped to a non-empty root the call panics or reads
exactly one file. -/
theorem loadBytes_mapped (env : Env) (rm : ResourceMap) (path root : String)
    (h : rm.get (beforeFirstSeparator path) = some root) (hne : root ≠ "") :
    (∃ msg, loadBytes env rm path = ⟨[], .panic msg⟩) ∨
      (∃ p, loadBytes env rm path = ⟨[p], .ok (env.ReadFile p)⟩) := by
  obtain ⟨rest, hs⟩ := stringsSplit_eq_cons path
  simp only [loadBytes, hs, h, hne, ↓reduceIte]
  by_cases ht : stringsHasPrefix root "~" = true
  · by_cases hl : root.length < 2
    · exact Or.inl ⟨"slice bounds out of range [2:1]", by simp [ht, hl]⟩
    · exact Or.inr ⟨filepathJoin [filepathJoin [env.HOME, String.mk (root.data.drop 2)],
        stringsReplaceAllEmpty path (beforeFirstSeparator path)], by simp [ht, hl]⟩
  · exact Or.inr ⟨filepathJoin [root, stringsReplaceAllEmpty path (beforeFirstSeparator path)],
      by simp [ht]⟩

/-! ## The inlining invariant -/

/-- C1 (counterexample): a step with a non-empty task name can leave the
flattening with its external config path in place. The step `namedContainer`
has an `Aggregate` sequence, the task name `build` and the config path
`ci/tasks/build.yml`; the switch takes it as an Aggregate, the run returns it
unchanged without reading a file, and the output holds a named task with a
non-empty config path. -/
theorem named_container_keeps_config_path :
    flattenPlanConfig demoEnv demoFiles [namedContainer] = ⟨[], .ok [namedContainer]⟩ ∧
      everywhere namedTaskInlined [namedContainer] = false :=
  ⟨by rfl, by decide⟩

/-- C1 (amended): on every returning run of `flattenPlanConfig`, every step of
the output that the walk visits (through the `Aggregate` sequence of Aggregate
steps and the `Do` sequence of Do steps, at every nesting level) and that is
of kind Task (no `Aggregate`, no `Do`, a non-empty task name) has an empty
external config path. -/
theorem flattened_tasks_have_no_config_path (env : Env) (files : ResourceMap)
    (plan out : List PlanConfig) (rd : List String)
    (h : flattenPlanConfig env files plan = ⟨rd, .ok out⟩) :
    walked taskInlined out = true :=
  ((flatten_ok_all env files).2 plan rd out h).1

/-- Witness of C1 (amended) on `demoPlan`. -/
theorem flattened_tasks_have_no_config_path_witness :
    flattenPlanConfig demoEnv demoFiles demoPlan =
        ⟨["/opt/ci/tasks/build.yml", "/opt/ci/scripts/build.sh"], .ok demoFlat⟩ ∧
      walked taskInlined demoFlat = true :=
  ⟨by rfl, flattened_tasks_have_no_config_path demoEnv demoFiles demoPlan demoFlat
    ["/opt/ci/tasks/build.yml", "/opt/ci/scripts/build.sh"] (by rfl)⟩

/-! ## Shape -/

theorem sameShapeStep_kind (s s2 : PlanConfig) (h : sameShapeStep s s2 = true) :
    s2.kind = s.kind ∧ s2.Task = s.Task := by
  obtain ⟨a, d, t, c, tc, r⟩ := s
  simp only [sameShapeStep, Bool.and_eq_true, decide_eq_true_eq] at h
  exact ⟨h.1.1.1.symm, by simp [PlanConfig.Task, h.1.1.2]⟩

/-- C2: on every returning run of `flattenPlanConfig` the output has the shape
of the input. The two sequences have the same length; at every position the
output step has the kind (Aggregate, Do, Task, other) and the task name of the
input step; and the same holds of the nested sequences at every level
(`sameShape`), so no step is added, removed or moved. -/
theorem flatten_preserves_shape (env : Env) (files : ResourceMap)
    (plan out : List PlanConfig) (rd : List String)
    (h : flattenPlanConfig env files plan = ⟨rd, .ok out⟩) :
    out.length = plan.length ∧ sameShape plan out = true ∧
      ∀ (i : Nat) (s s2 : PlanConfig), plan.get? i = some s → out.get? i = some s2 →
        s2.kind = s.kind ∧ s2.Task = s.Task := by
  have hs := ((flatten_ok_all env files).2 plan rd out h).2
  exact ⟨(sameShape_length plan out hs).symm, hs, fun i s s2 h1 h2 =>
    sameShapeStep_kind s s2 (sameShape_get plan out hs i s s2 h1 h2)⟩

/-- Witness of C2 on `demoPlan`. -/
theorem flatten_preserves_shape_witness :
    flattenPlanConfig demoEnv demoFiles demoPlan =
        ⟨["/opt/ci/tasks/build.yml", "/opt/ci/scripts/build.sh"], .ok demoFlat⟩ ∧
      (demoFlat.length = demoPlan.length ∧ sameShape demoPlan demoFlat = true ∧
        ∀ (i : Nat) (s s2 : PlanConfig), demoPlan.get? i = some s → demoFlat.get? i = some s2 →
          s2.kind = s.kind ∧ s2.Task = s.Task) :=
  ⟨by rfl, flatten_preserves_shape demoEnv demoFiles demoPlan demoFlat
    ["/opt/ci/tasks/build.yml", "/opt/ci/scripts/build.sh"] (by rfl)⟩

/-! ## Resolution of resource paths -/

/-- C3 (the code at a failing input): with `ci` mapped to `/opt/ci`, the path
`ci/tasks/ci.sh` is resolved to `/opt/ci/tasks/.sh`: the call to
`strings.Replace` removes the resource name from the file name as well as from
the front of the path. The file `/opt/ci/tasks/ci.sh`, which is the root joined
with the rest of the path, exists and holds `echo ci`; the call reads another
path and returns the error of that read. -/
theorem loadBytes_removes_inner_occurrence :
    loadBytes demoEnv demoFiles "ci/tasks/ci.sh" =
        ⟨["/opt/ci/tasks/.sh"],
          .ok (.error "open /opt/ci/tasks/.sh: no such file or directory")⟩ ∧
      filepathJoin ["/opt/ci", "tasks/ci.sh"] = "/opt/ci/tasks/ci.sh" ∧
      demoEnv.ReadFile "/opt/ci/tasks/ci.sh" = .ok "echo ci" :=
  ⟨by rfl, by rfl, by rfl⟩

/-- C8: `loadBytes` returns the error `no resource map provided for <path>`
without reading a file exactly when the text of the path before its first
separator is not a key of the resource map or is mapped to the empty string. -/
theorem loadBytes_unmapped_iff (env : Env) (rm : ResourceMap) (path : String) :
    loadBytes env rm path = ⟨[], .ok (.error ("no resource map provided for " ++ path))⟩ ↔
      (rm.get (beforeFirstSeparator path) = none ∨
        rm.get (beforeFirstSeparator path) = some "") := by
  constructor
  · intro h
    cases hget : rm.get (beforeFirstSeparator path) with
    | none => exact Or.inl rfl
    | some root =>
      by_cases hne : root = ""
      · exact Or.inr (by rw [hne])
      · exfalso
        rcases loadBytes_mapped env rm path root hget hne with ⟨msg, hp⟩ | ⟨p, hp⟩
        · rw [hp] at h
          injection h with _ h2
          cases h2
        · rw [hp] at h
          injection h with h1 _
          cases h1
  · exact loadBytes_unmapped env rm path

/-! ## Idempotence -/

/-- C7: flattening is idempotent. When `flattenPlanConfig` returns the
sequence `out`, a second run on `out` with the same resource map and
filesystem returns `out` again, and reads no file. -/
theorem flatten_idempotent (env : Env) (files : ResourceMap)
    (plan out : List PlanConfig) (rd : List String)
    (h : flattenPlanConfig env files plan = ⟨rd, .ok out⟩) :
    flattenPlanConfig env files out = ⟨[], .ok out⟩ :=
  (flatten_inlined_all env files).2 out ((flatten_ok_all env files).2 plan rd out h).1

/-- Witness of C7 on `demoPlan`. -/
theorem flatten_idempotent_witness :
    flattenPlanConfig demoEnv demoFiles demoPlan =
        ⟨["/opt/ci/tasks/build.yml", "/opt/ci/scripts/build.sh"], .ok demoFlat⟩ ∧
      flattenPlanConfig demoEnv demoFiles demoFlat = ⟨[], .ok demoFlat⟩ :=
  ⟨by rfl, flatten_idempotent demoEnv demoFiles demoPlan demoFlat
    ["/opt/ci/tasks/build.yml", "/opt/ci/scripts/build.sh"] (by rfl)⟩

/-! ## Task steps with an external config -/

/-- The shell template renders to the script between a fixed head and a fixed
tail, whatever the script holds. -/
theorem templateExecute_shTemplate (S : String) :
    templateExecute shTemplate ⟨S⟩ =
      "cat > task.sh <<\x27EO_SH\x27\n" ++ S ++ "\nEO_SH\n\nchmod +x task.sh\n./task.sh\n" := by
  obtain ⟨l⟩ := S
  apply String.ext
  simp [templateExecute, shTemplate, renderFrom, contentsAction, List.isPrefixOf]

theorem flattenStep_task (env : Env) (files : ResourceMap) (t c : String)
    (tc : Option TaskConfig) (r : String) (ht : t ≠ "") :
    flattenStep env files (.mk none none t c tc r) =
      flattenTask env files (.mk none none t c tc r) := by
  rw [flattenStep]
  simp [ht]

theorem flattenPlanConfig_single (env : Env) (files : ResourceMap) (s s2 : PlanConfig)
    (rd : List String) (h : flattenStep env files s = ⟨rd, .ok s2⟩) :
    flattenPlanConfig env files [s] = ⟨rd, .ok [s2]⟩ := by
  rw [flattenPlanConfig_cons_ok]
  exact ⟨rd, s2, [], [], h, flattenPlanConfig_nil env files, rfl, by simp⟩

/-- The step that a returning run leaves at a position of the top sequence is
the step that the loop body returns for the input step at that position. -/
theorem flattenPlanConfig_at (env : Env) (files : ResourceMap) (s : PlanConfig) :
    ∀ (pre post out : List PlanConfig) (rd : List String),
      flattenPlanConfig env files (pre ++ s :: post) = ⟨rd, .ok out⟩ →
        ∃ r1 s2, flattenStep env files s = ⟨r1, .ok s2⟩ ∧ out.get? pre.length = some s2
  | [], post, out, rd, h => by
    rw [List.nil_append, flattenPlanConfig_cons_ok] at h
    obtain ⟨r1, s2, r2, ss2, h1, _, hout, _⟩ := h
    exact ⟨r1, s2, h1, by simp [hout]⟩
  | x :: pre, post, out, rd, h => by
    rw [List.cons_append, flattenPlanConfig_cons_ok] at h
    obtain ⟨r1, x2, r2, ss2, _, h2, hout, _⟩ := h
    obtain ⟨r3, s2, h3, h4⟩ := flattenPlanConfig_at env files s pre post ss2 r2 h2
    exact ⟨r3, s2, h3, by rw [hout]; exact h4⟩

/-- A call of `loadBytes` that returns bytes has read exactly one file. -/
theorem loadBytes_ok_reads (env : Env) (rm : ResourceMap) (path bytes : String)
    (rd : List String) (h : loadBytes env rm path = ⟨rd, .ok (.ok bytes)⟩) :
    rd.length = 1 := by
  cases hget : rm.get (beforeFirstSeparator path) with
  | none =>
    rw [loadBytes_unmapped env rm path (Or.inl hget)] at h
    injection h with _ h2
    injection h2 with h2
    cases h2
  | some root =>
    by_cases hne : root = ""
    · rw [loadBytes_unmapped env rm path (Or.inr (by rw [hget, hne]))] at h
      injection h with _ h2
      injection h2 with h2
      cases h2
    · rcases loadBytes_mapped env rm path root hget hne with ⟨msg, hp⟩ | ⟨p, hp⟩
      · rw [hp] at h
        injection h with _ h2
        cases h2
      · rw [hp] at h
        injection h with h1 _
        rw [← h1]
        rfl

/-- The Task case when the parsed config names a bare command: the config is
installed as parsed and only the config file is read. -/
theorem flattenTask_bare (env : Env) (kvs : List (String × String))
    (a d : Option (List PlanConfig)) (t c : String) (tc : Option TaskConfig) (r : String)
    (bytes : String) (C : TaskConfig) (rd1 : List String)
    (hc : c ≠ "")
    (hload : loadBytes env (some kvs) c = ⟨rd1, .ok (.ok bytes)⟩)
    (hparse : env.Unmarshal bytes = .ok C)
    (hbare : stringsContains C.Run.Path '/' = false) :
    flattenTask env (some kvs) (.mk a d t c tc r) = ⟨rd1, .ok (.mk a d t "" (some C) r)⟩ := by
  simp [flattenTask, hc, hload, Run.andThen_mk_ok, hparse, hbare, Run.ret]

/-- The Task case when the parsed config names a script: the command becomes
the interpreter registered for the extension of the script path, and the
arguments become the arguments of the interpreter followed by the script,
rendered through the template when the interpreter has one. -/
theorem flattenTask_script (env : Env) (kvs : List (String × String))
    (a d : Option (List PlanConfig)) (t c : String) (tc : Option TaskConfig) (r : String)
    (bytes S : String) (C : TaskConfig) (rd1 rd2 : List String)
    (hc : c ≠ "")
    (hload : loadBytes env (some kvs) c = ⟨rd1, .ok (.ok bytes)⟩)
    (hparse : env.Unmarshal bytes = .ok C)
    (hsep : stringsContains C.Run.Path '/' = true)
    (hscript : loadBytes env (some kvs) C.Run.Path = ⟨rd2, .ok (.ok S)⟩) :
    flattenTask env (some kvs) (.mk a d t c tc r) =
      ⟨rd1 ++ rd2, .ok (.mk a d t "" (some
        { C with Run := { C.Run with
            Path := (interpretersGet (filepathExt C.Run.Path)).Path,
            Args :=
              if (interpretersGet (filepathExt C.Run.Path)).Template ≠ "" then
                (interpretersGet (filepathExt C.Run.Path)).Args ++
                  [templateExecute (interpretersGet (filepathExt C.Run.Path)).Template ⟨S⟩]
              else (interpretersGet (filepathExt C.Run.Path)).Args ++ [S] } }) r)⟩ := by
  simp [flattenTask, hc, hload, Run.andThen_mk_ok, hparse, hsep, hscript, Run.ret]

theorem interpretersGet_empty : interpretersGet "" = ⟨"sh", ["-c"], shTemplate⟩ := by rfl

theorem interpretersGet_sh : interpretersGet ".sh" = ⟨"sh", ["-c"], shTemplate⟩ := by rfl

theorem interpretersGet_rb : interpretersGet ".rb" = ⟨"ruby", ["-e"], ""⟩ := by rfl

theorem interpretersGet_py : interpretersGet ".py" = ⟨"python", ["-c"], ""⟩ := by rfl

theorem interpretersGet_js : interpretersGet ".js" = ⟨"node", ["-e"], ""⟩ := by rfl

theorem shTemplate_ne_empty : shTemplate ≠ "" := by decide

/-- C4: a Task step with a non-empty external config path whose file resolves
and parses to a config `C` with a `Run.Path` free of separators. Flattening
the step returns it with the config path cleared and `C` installed as parsed
(`Run.Path` and `Run.Args` are those of `C`); the only file read is the config
file, so no script is read; and in every returning run over a sequence that
holds the step, the output holds that result at the position of the step. -/
theorem task_bare_command_installed (env : Env) (kvs : List (String × String))
    (t c : String) (tc : Option TaskConfig) (r : String)
    (bytes : String) (C : TaskConfig) (rd1 : List String)
    (ht : t ≠ "") (hc : c ≠ "")
    (hload : loadBytes env (some kvs) c = ⟨rd1, .ok (.ok bytes)⟩)
    (hparse : env.Unmarshal bytes = .ok C)
    (hbare : stringsContains C.Run.Path '/' = false) :
    flattenPlanConfig env (some kvs) [.mk none none t c tc r] =
        ⟨rd1, .ok [.mk none none t "" (some C) r]⟩ ∧
      rd1.length = 1 ∧
      ∀ (pre post out : List PlanConfig) (rd : List String),
        flattenPlanConfig env (some kvs) (pre ++ .mk none none t c tc r :: post) = ⟨rd, .ok out⟩ →
          out.get? pre.length = some (.mk none none t "" (some C) r) := by
  have hstep : flattenStep env (some kvs) (.mk none none t c tc r) =
      ⟨rd1, .ok (.mk none none t "" (some C) r)⟩ := by
    rw [flattenStep_task env (some kvs) t c tc r ht]
    exact flattenTask_bare env kvs none none t c tc r bytes C rd1 hc hload hparse hbare
  refine ⟨flattenPlanConfig_single env (some kvs) _ _ rd1 hstep,
    loadBytes_ok_reads env (some kvs) c bytes rd1 hload, ?_⟩
  intro pre post out rd h
  obtain ⟨r1, s2, h1, h2⟩ := flattenPlanConfig_at env (some kvs) _ pre post out rd h
  rw [hstep] at h1
  injection h1 with _ h3
  injection h3 with h3
  rw [h2, h3]

/-- Witness of C4: the task `make` of the demo world, whose config names the
bare command `make`. -/
theorem task_bare_command_installed_witness :
    flattenPlanConfig demoEnv (some [("ci", "/opt/ci")])
        [.mk none none "make" "ci/tasks/make.yml" none ""] =
      ⟨["/opt/ci/tasks/make.yml"],
        .ok [.mk none none "make" "" (some ⟨⟨"make", ["all"], ""⟩, "linux"⟩) ""]⟩ :=
  (task_bare_command_installed demoEnv [("ci", "/opt/ci")] "make" "ci/tasks/make.yml" none ""
    "run:\n  path: make\n  args: [all]" ⟨⟨"make", ["all"], ""⟩, "linux"⟩
    ["/opt/ci/tasks/make.yml"] (by decide) (by decide) (by rfl) (by rfl) (by rfl)).1

/-- C5: a Task step whose parsed config has a `Run.Path` with a separator and
the extension `.sh` or no extension, the script resolving to the text `S`.
Flattening the step gives `Run.Path = "sh"` and `Run.Args = ["-c", R]`, two
elements whatever the arguments of the parsed config were, where `R` is the
shell template with `S` in the place of its action; in every returning run
over a sequence that holds the step, the output holds that result at the
position of the step. -/
theorem task_shell_script_wrapped (env : Env) (kvs : List (String × String))
    (t c : String) (tc : Option TaskConfig) (r : String)
    (bytes S : String) (C : TaskConfig) (rd1 rd2 : List String)
    (ht : t ≠ "") (hc : c ≠ "")
    (hload : loadBytes env (some kvs) c = ⟨rd1, .ok (.ok bytes)⟩)
    (hparse : env.Unmarshal bytes = .ok C)
    (hsep : stringsContains C.Run.Path '/' = true)
    (hext : filepathExt C.Run.Path = "" ∨ filepathExt C.Run.Path = ".sh")
    (hscript : loadBytes env (some kvs) C.Run.Path = ⟨rd2, .ok (.ok S)⟩) :
    flattenPlanConfig env (some kvs) [.mk none none t c tc r] =
        ⟨rd1 ++ rd2, .ok [.mk none none t "" (some
          { C with Run := { C.Run with
              Path := "sh",
              Args := ["-c", "cat > task.sh <<\x27EO_SH\x27\n" ++ S ++
                "\nEO_SH\n\nchmod +x task.sh\n./task.sh\n"] } }) r]⟩ ∧
      ∀ (pre post out : List PlanConfig) (rd : List String),
        flattenPlanConfig env (some kvs) (pre ++ .mk none none t c tc r :: post) = ⟨rd, .ok out⟩ →
          out.get? pre.length = some (.mk none none t "" (some
            { C with Run := { C.Run with
                Path := "sh",
                Args := ["-c", "cat > task.sh <<\x27EO_SH\x27\n" ++ S ++
                  "\nEO_SH\n\nchmod +x task.sh\n./task.sh\n"] } }) r) := by
  have hstep : flattenStep env (some kvs) (.mk none none t c tc r) =
      ⟨rd1 ++ rd2, .ok (.mk none none t "" (some
        { C with Run := { C.Run with
            Path := "sh",
            Args := ["-c", "cat > task.sh <<\x27EO_SH\x27\n" ++ S ++
              "\nEO_SH\n\nchmod +x task.sh\n./task.sh\n"] } }) r)⟩ := by
    rw [flattenStep_task env (some kvs) t c tc r ht,
      flattenTask_script env kvs none none t c tc r bytes S C rd1 rd2 hc hload hparse hsep hscript]
    rcases hext with hext | hext
    · rw [hext, interpretersGet_empty]
      simp [shTemplate_ne_empty, templateExecute_shTemplate]
    · rw [hext, interpretersGet_sh]
      simp [shTemplate_ne_empty, templateExecute_shTemplate]
  refine ⟨flattenPlanConfig_single env (some kvs) _ _ _ hstep, ?_⟩
  intro pre post out rd h
  obtain ⟨r1, s2, h1, h2⟩ := flattenPlanConfig_at env (some kvs) _ pre post out rd h
  rw [hstep] at h1
  injection h1 with _ h3
  injection h3 with h3
  rw [h2, h3]

/-- Witness of C5: the script `ci/scripts/build.sh` with the contents
`echo hi`; the argument `fast` of the parsed config is replaced. -/
theorem task_shell_script_wrapped_witness :
    flattenPlanConfig demoEnv (some [("ci", "/opt/ci")])
        [.mk none none "build" "ci/tasks/build.yml" none ""] =
      ⟨["/opt/ci/tasks/build.yml"] ++ ["/opt/ci/scripts/build.sh"],
        .ok [.mk none none "build" "" (some
          { (⟨⟨"ci/scripts/build.sh", ["fast"], ""⟩, "linux"⟩ : TaskConfig) with
            Run := { (⟨"ci/scripts/build.sh", ["fast"], ""⟩ : TaskRunConfig) with
              Path := "sh",
              Args := ["-c", "cat > task.sh <<\x27EO_SH\x27\n" ++ "echo hi" ++
                "\nEO_SH\n\nchmod +x task.sh\n./task.sh\n"] } }) ""]⟩ :=
  (task_shell_script_wrapped demoEnv [("ci", "/opt/ci")] "build" "ci/tasks/build.yml" none ""
    "run:\n  path: ci/scripts/build.sh\n  args: [fast]" "echo hi"
    ⟨⟨"ci/scripts/build.sh", ["fast"], ""⟩, "linux"⟩
    ["/opt/ci/tasks/build.yml"] ["/opt/ci/scripts/build.sh"]
    (by decide) (by decide) (by rfl) (by rfl) (by rfl) (Or.inr (by rfl)) (by rfl)).1

/-- C6: a Task step whose parsed config has a `Run.Path` with a separator and
the extension `.rb`, `.py` or `.js`, the script resolving to the text `S`.
Flattening the step gives `Run.Path` = `ruby`, `python` or `node` and
`Run.Args = [flag, S]` with the flag `-e`, `-c` or `-e`: the script is the
last argument, as read, and the arguments of the parsed config are replaced;
in every returning run over a sequence that holds the step, the output holds
that result at the position of the step. -/
theorem task_script_passed_through (env : Env) (kvs : List (String × String))
    (t c : String) (tc : Option TaskConfig) (r : String)
    (bytes S : String) (C : TaskConfig) (rd1 rd2 : List String) (prog flag : String)
    (ht : t ≠ "") (hc : c ≠ "")
    (hload : loadBytes env (some kvs) c = ⟨rd1, .ok (.ok bytes)⟩)
    (hparse : env.Unmarshal bytes = .ok C)
    (hsep : stringsContains C.Run.Path '/' = true)
    (hext : (filepathExt C.Run.Path = ".rb" ∧ prog = "ruby" ∧ flag = "-e") ∨
      (filepathExt C.Run.Path = ".py" ∧ prog = "python" ∧ flag = "-c") ∨
      (filepathExt C.Run.Path = ".js" ∧ prog = "node" ∧ flag = "-e"))
    (hscript : loadBytes env (some kvs) C.Run.Path = ⟨rd2, .ok (.ok S)⟩) :
    flattenPlanConfig env (some kvs) [.mk none none t c tc r] =
        ⟨rd1 ++ rd2, .ok [.mk none none t "" (some
          { C with Run := { C.Run with Path := prog, Args := [flag, S] } }) r]⟩ ∧
      ∀ (pre post out : List PlanConfig) (rd : List String),
        flattenPlanConfig env (some kvs) (pre ++ .mk none none t c tc r :: post) = ⟨rd, .ok out⟩ →
          out.get? pre.length = some (.mk none none t "" (some
            { C with Run := { C.Run with Path := prog, Args := [flag, S] } }) r) := by
  have hstep : flattenStep env (some kvs) (.mk none none t c tc r) =
      ⟨rd1 ++ rd2, .ok (.mk none none t "" (some
        { C with Run := { C.Run with Path := prog, Args := [flag, S] } }) r)⟩ := by
    rw [flattenStep_task env (some kvs) t c tc r ht,
      flattenTask_script env kvs none none t c tc r bytes S C rd1 rd2 hc hload hparse hsep hscript]
    rcases hext with ⟨hext, hp, hf⟩ | ⟨hext, hp, hf⟩ | ⟨hext, hp, hf⟩
    · rw [hext, interpretersGet_rb, hp, hf]
      simp
    · rw [hext, interpretersGet_py, hp, hf]
      simp
    · rw [hext, interpretersGet_js, hp, hf]
      simp
  refine ⟨flattenPlanConfig_single env (some kvs) _ _ _ hstep, ?_⟩
  intro pre post out rd h
  obtain ⟨r1, s2, h1, h2⟩ := flattenPlanConfig_at env (some kvs) _ pre post out rd h
  rw [hstep] at h1
  injection h1 with _ h3
  injection h3 with h3
  rw [h2, h3]

/-- Witness of C6: the script `ci/scripts/check.py` with the contents
`print(1)` gives `python` with the arguments `-c` and `print(1)`. -/
theorem task_script_passed_through_witness :
    flattenPlanConfig demoEnv (some [("ci", "/opt/ci")])
        [.mk none none "check" "ci/tasks/check.yml" none ""] =
      ⟨["/opt/ci/tasks/check.yml"] ++ ["/opt/ci/scripts/check.py"],
        .ok [.mk none none "check" "" (some
          { (⟨⟨"ci/scripts/check.py", [], ""⟩, "linux"⟩ : TaskConfig) with
            Run := { (⟨"ci/scripts/check.py", [], ""⟩ : TaskRunConfig) with
              Path := "python", Args := ["-c", "print(1)"] } }) ""]⟩ :=
  (task_script_passed_through demoEnv [("ci", "/opt/ci")] "check" "ci/tasks/check.yml" none ""
    "run:\n  path: ci/scripts/check.py" "print(1)"
    ⟨⟨"ci/scripts/check.py", [], ""⟩, "linux"⟩
    ["/opt/ci/tasks/check.yml"] ["/opt/ci/scripts/check.py"] "python" "-c"
    (by decide) (by decide) (by rfl) (by rfl) (by rfl)
    (Or.inr (Or.inl ⟨by rfl, rfl, rfl⟩)) (by rfl)).1

/-! ## Runs without a resource map -/

theorem needsConfig_mk (a d : Option (List PlanConfig)) (t c : String)
    (tc : Option TaskConfig) (r : String) :
    needsConfig (.mk a d t c tc r) = (a.isNone && d.isNone &&
      decide (t ≠ "") && decide (c ≠ "")) := by
  cases a <;> cases d <;> by_cases ht : t = "" <;>
    simp [needsConfig, PlanConfig.kind, PlanConfig.TaskConfigPath, ht]

/-- With the nil map a run reads nothing; it returns its input when the walk
visits no Task step with an external config path, and exits through
`log.Fatalf` naming the path of such a step otherwise. -/
theorem flatten_nil_map_all (env : Env) :
    (∀ s, (visitsStep needsConfig s = false ∧ flattenStep env none s = ⟨[], .ok s⟩) ∨
      (visitsStep needsConfig s = true ∧ ∃ p,
        visitsStep (fun x => needsConfig x && decide (x.TaskConfigPath = p)) s = true ∧
        flattenStep env none s = ⟨[], .fatal ("empty resource map; cannot find " ++ p)⟩)) ∧
    (∀ ss, (visits needsConfig ss = false ∧ flattenPlanConfig env none ss = ⟨[], .ok ss⟩) ∨
      (visits needsConfig ss = true ∧ ∃ p,
        visits (fun x => needsConfig x && decide (x.TaskConfigPath = p)) ss = true ∧
        flattenPlanConfig env none ss =
          ⟨[], .fatal ("empty resource map; cannot find " ++ p)⟩)) := by
  apply PlanConfig.induction
  · exact Or.inl ⟨by simp [visits], flattenPlanConfig_nil env none⟩
  · intro s ss hs hss
    rcases hs with ⟨hv, hr⟩ | ⟨hv, p, hvp, hr⟩
    · rcases hss with ⟨hv2, hr2⟩ | ⟨hv2, p, hvp2, hr2⟩
      · refine Or.inl ⟨by simp [visits, hv, hv2], ?_⟩
        rw [flattenPlanConfig, hr, Run.andThen_mk_ok, hr2]
        simp [Run.andThen, Run.ret]
      · refine Or.inr ⟨by simp [visits, hv2], p, by simp [visits, hvp2], ?_⟩
        rw [flattenPlanConfig, hr, Run.andThen_mk_ok, hr2]
        simp [Run.andThen]
    · refine Or.inr ⟨by simp [visits, hv], p, by simp [visits, hvp], ?_⟩
      rw [flattenPlanConfig, hr, Run.andThen_mk_fatal]
  · intro a d t c tc r ha hd
    cases a with
    | some xs =>
      rcases ha xs rfl with ⟨hv, hr⟩ | ⟨hv, p, hvp, hr⟩
      · refine Or.inl ⟨by simp [visitsStep, hv, needsConfig_mk], ?_⟩
        rw [flattenStep, hr, Run.andThen_mk_ok]
        simp [Run.ret]
      · refine Or.inr ⟨by simp [visitsStep, hv], p, by simp [visitsStep, hvp], ?_⟩
        rw [flattenStep, hr, Run.andThen_mk_fatal]
    | none =>
      cases d with
      | some ys =>
        rcases hd ys rfl with ⟨hv, hr⟩ | ⟨hv, p, hvp, hr⟩
        · refine Or.inl ⟨by simp [visitsStep, hv, needsConfig_mk], ?_⟩
          rw [flattenStep, hr, Run.andThen_mk_ok]
          simp [Run.ret]
        · refine Or.inr ⟨by simp [visitsStep, hv], p, by simp [visitsStep, hvp], ?_⟩
          rw [flattenStep, hr, Run.andThen_mk_fatal]
      | none =>
        by_cases ht : t = ""
        · refine Or.inl ⟨by simp [visitsStep, needsConfig_mk, ht], ?_⟩
          rw [flattenStep]
          simp [ht, Run.ret]
        · by_cases hc : c = ""
          · refine Or.inl ⟨by simp [visitsStep, needsConfig_mk, hc], ?_⟩
            rw [flattenStep_task env none t c tc r ht, hc, flattenTask_inline]
          · refine Or.inr ⟨by simp [visitsStep, needsConfig_mk, ht, hc], c,
              by simp [visitsStep, needsConfig_mk, ht, hc, PlanConfig.TaskConfigPath], ?_⟩
            rw [flattenStep_task env none t c tc r ht]
            simp [flattenTask, hc]

/-- C10: with the nil resource map `flattenPlanConfig` reads no file, and one
of two cases holds. Either the walk visits no step of kind Task with a
non-empty external config path, and the run returns the plan unchanged; or the
walk visits such a step, and the run exits through `log.Fatalf` with the
message `empty resource map; cannot find <path>` for the path of such a step. -/
theorem nil_map_fails_iff_config_needed (env : Env) (plan : List PlanConfig) :
    (visits needsConfig plan = false ∧ flattenPlanConfig env none plan = ⟨[], .ok plan⟩) ∨
      (visits needsConfig plan = true ∧ ∃ p,
        visits (fun x => needsConfig x && decide (x.TaskConfigPath = p)) plan = true ∧
        flattenPlanConfig env none plan =
          ⟨[], .fatal ("empty resource map; cannot find " ++ p)⟩) :=
  (flatten_nil_map_all env).2 plan

/-! ## Resources missing from the map -/

theorem unmappedTask_mk (kvs : List (String × String)) (a d : Option (List PlanConfig))
    (t c : String) (tc : Option TaskConfig) (r : String) :
    unmappedTask kvs (.mk a d t c tc r) = (a.isNone && d.isNone && decide (t ≠ "") &&
      decide (c ≠ "") && (kvs.lookup (beforeFirstSeparator c)).isNone) := by
  simp [unmappedTask, needsConfig_mk, PlanConfig.TaskConfigPath]

/-- The Task case on a config path whose resource is not a key of the map:
the run exits through `log.Fatalf` before any read. -/
theorem flattenTask_unmapped (env : Env) (kvs : List (String × String))
    (a d : Option (List PlanConfig)) (t c : String) (tc : Option TaskConfig) (r : String)
    (hc : c ≠ "") (hget : kvs.lookup (beforeFirstSeparator c) = none) :
    flattenTask env (some kvs) (.mk a d t c tc r) =
      ⟨[], .fatal ("failed to read task config at " ++ c ++ ": " ++
        ("no resource map provided for " ++ c))⟩ := by
  have hload := loadBytes_unmapped env (some kvs) c (Or.inl (by simpa [ResourceMap.get] using hget))
  simp [flattenTask, hc, hload, Run.andThen_mk_ok]

/-- A run whose walk visits a Task whose resource is missing does not return. -/
theorem flatten_unmapped_all (env : Env) (kvs : List (String × String)) :
    (∀ s, visitsStep (unmappedTask kvs) s = true →
      ∀ rd s2, flattenStep env (some kvs) s ≠ ⟨rd, .ok s2⟩) ∧
    (∀ ss, visits (unmappedTask kvs) ss = true →
      ∀ rd ss2, flattenPlanConfig env (some kvs) ss ≠ ⟨rd, .ok ss2⟩) := by
  apply PlanConfig.induction
  · intro h
    simp [visits] at h
  · intro s ss hs hss h rd out hrun
    rw [flattenPlanConfig_cons_ok] at hrun
    obtain ⟨r1, s2, r2, ss2, h1, h2, _, _⟩ := hrun
    simp only [visits, Bool.or_eq_true] at h
    rcases h with h | h
    · exact hs h r1 s2 h1
    · exact hss h r2 ss2 h2
  · intro a d t c tc r ha hd h rd s2 hrun
    cases a with
    | some xs =>
      rw [flattenStep_aggregate_ok] at hrun
      obtain ⟨xs2, h1, _⟩ := hrun
      simp only [visitsStep, unmappedTask_mk, Option.isNone_some, Bool.false_and,
        Bool.false_or] at h
      exact ha xs rfl h rd xs2 h1
    | none =>
      cases d with
      | some ys =>
        rw [flattenStep_do_ok] at hrun
        obtain ⟨ys2, h1, _⟩ := hrun
        simp only [visitsStep, unmappedTask_mk, Option.isNone_some, Bool.false_and,
          Bool.and_false, Bool.false_or] at h
        exact hd ys rfl h rd ys2 h1
      | none =>
        simp only [visitsStep, unmappedTask_mk, Option.isNone_none, Bool.true_and,
          Bool.and_eq_true, decide_eq_true_eq, Option.isNone_iff_eq_none] at h
        obtain ⟨⟨ht, hc⟩, hget⟩ := h
        rw [flattenStep_task env (some kvs) t c tc r ht,
          flattenTask_unmapped env kvs none none t c tc r hc hget] at hrun
        injection hrun with _ h2
        cases h2

/-- The job loop returns only when the plan of every job is flattened by a
returning run. -/
theorem steamrollJobs_ok (env : Env) (files : ResourceMap) :
    ∀ (jobs out : List JobConfig) (rd : List String),
      steamrollJobs env files jobs = ⟨rd, .ok out⟩ →
        ∀ job ∈ jobs, ∃ rd2 plan2, flattenPlanConfig env files job.Plan = ⟨rd2, .ok plan2⟩
  | [], _, _, _, job, hjob => by simp at hjob
  | j :: js, out, rd, h, job, hjob => by
    rw [steamrollJobs, Run.andThen_eq_ok] at h
    obtain ⟨r1, plan2, r2, h1, h2, _⟩ := h
    rw [Run.andThen_eq_ok] at h2
    obtain ⟨r3, js2, r4, h3, _, _⟩ := h2
    rcases List.mem_cons.1 hjob with hj | hj
    · subst hj
      exact ⟨r1, plan2, h1⟩
    · exact steamrollJobs_ok env files js js2 r3 h3 job hj

theorem Steamroll_ok (env : Env) (files : ResourceMap) (cfg : Config) (rd : List String)
    (v : Config × Option String) (h : Steamroll env files cfg = ⟨rd, .ok v⟩) :
    ∀ job ∈ cfg.Jobs, ∃ rd2 plan2, flattenPlanConfig env files job.Plan = ⟨rd2, .ok plan2⟩ := by
  rw [Steamroll, Run.andThen_eq_ok] at h
  obtain ⟨r1, jobs2, r2, h1, _, _⟩ := h
  exact steamrollJobs_ok env files cfg.Jobs jobs2 r1 h1

/-- C9 (counterexample): on a pipeline whose only Task names the resource
`tasks`, absent from the non-nil map `demoFiles`, `Steamroll` exits the
process through `log.Fatalf` before reading a file; it returns neither a
config nor an error value to its caller. -/
theorem steamroll_unmapped_exits :
    Steamroll demoEnv demoFiles unmappedPipeline =
        ⟨[], .fatal ("failed to read task config at tasks/build.yml: " ++
          "no resource map provided for tasks/build.yml")⟩ ∧
      ¬ ∃ rd cfg err, Steamroll demoEnv demoFiles unmappedPipeline = ⟨rd, .ok (cfg, some err)⟩ := by
  have h : Steamroll demoEnv demoFiles unmappedPipeline =
      ⟨[], .fatal ("failed to read task config at tasks/build.yml: " ++
        "no resource map provided for tasks/build.yml")⟩ := by rfl
  refine ⟨h, ?_⟩
  rintro ⟨rd, cfg, err, h2⟩
  rw [h] at h2
  injection h2 with _ h3
  cases h3

/-- C9 (amended): for every pipeline and every non-nil resource map, when the
walk of the plan of some job visits a step of kind Task with a non-empty
external config path whose resource name is not a key of the map,
`flattenPlanConfig` on that plan and `Steamroll` on the pipeline do not return:
the run ends the process, through `log.Fatalf` or through a panic at an
earlier step, so the step is never skipped and no error value reaches the
caller. On such a step alone `flattenPlanConfig` exits through `log.Fatalf`
with the message `failed to read task config at <path>: no resource map
provided for <path>`, before any file is read. -/
theorem unmapped_task_ends_process (env : Env) (kvs : List (String × String)) (cfg : Config)
    (job : JobConfig) (hjob : job ∈ cfg.Jobs)
    (hvisit : visits (unmappedTask kvs) job.Plan = true) :
    (∀ rd out, flattenPlanConfig env (some kvs) job.Plan ≠ ⟨rd, .ok out⟩) ∧
      (∀ rd v, Steamroll env (some kvs) cfg ≠ ⟨rd, .ok v⟩) ∧
      (∀ s, unmappedTask kvs s = true →
        flattenPlanConfig env (some kvs) [s] =
          ⟨[], .fatal ("failed to read task config at " ++ s.TaskConfigPath ++ ": " ++
            ("no resource map provided for " ++ s.TaskConfigPath))⟩) := by
  have hplan := (flatten_unmapped_all env kvs).2 job.Plan hvisit
  refine ⟨hplan, ?_, ?_⟩
  · intro rd v h
    obtain ⟨rd2, plan2, h2⟩ := Steamroll_ok env (some kvs) cfg rd v h job hjob
    exact hplan rd2 plan2 h2
  · intro s hs
    obtain ⟨a, d, t, c, tc, r⟩ := s
    simp only [unmappedTask_mk, Bool.and_eq_true, decide_eq_true_eq,
      Option.isNone_iff_eq_none] at hs
    obtain ⟨⟨⟨⟨ha, hd⟩, ht⟩, hc⟩, hget⟩ := hs
    subst ha hd
    rw [flattenPlanConfig, flattenStep_task env (some kvs) t c tc r ht,
      flattenTask_unmapped env kvs none none t c tc r hc hget, Run.andThen_mk_fatal]
    rfl

/-- Witness of C9 (amended) on `unmappedPipeline`. -/
theorem unmapped_task_ends_process_witness :
    (∀ rd v, Steamroll demoEnv (some [("ci", "/opt/ci")]) unmappedPipeline ≠ ⟨rd, .ok v⟩) ∧
      flattenPlanConfig demoEnv (some [("ci", "/opt/ci")]) [taskFile "build" "tasks/build.yml"] =
        ⟨[], .fatal ("failed to read task config at " ++
          (taskFile "build" "tasks/build.yml").TaskConfigPath ++ ": " ++
          ("no resource map provided for " ++
            (taskFile "build" "tasks/build.yml").TaskConfigPath))⟩ :=
  have h := unmapped_task_ends_process demoEnv [("ci", "/opt/ci")] unmappedPipeline
    ⟨[taskFile "build" "tasks/build.yml"], "name: build"⟩ (by simp [unmappedPipeline])
    (by decide)
  ⟨h.2.1, h.2.2 (taskFile "build" "tasks/build.yml") (by decide)⟩

/-! ## Composition of runs over sequences and containers -/

theorem Run.andThen_assoc {α β γ : Type} (r : Run α) (f : α → Run β) (g : β → Run γ) :
    (r.andThen f).andThen g = r.andThen fun a => (f a).andThen g := by
  obtain ⟨rd, o⟩ := r
  cases o with
  | ok a =>
    rw [Run.andThen_mk_ok, Run.andThen_mk_ok]
    obtain ⟨rd2, o2⟩ := f a
    cases o2 <;> simp [Run.andThen]
  | fatal msg => simp [Run.andThen]
  | panic msg => simp [Run.andThen]

/-- The run on a concatenation is the run on the first part followed, when it
returns, by the run on the second part. -/
theorem flattenPlanConfig_append (env : Env) (files : ResourceMap) (ys : List PlanConfig) :
    ∀ xs : List PlanConfig, flattenPlanConfig env files (xs ++ ys) =
      (flattenPlanConfig env files xs).andThen fun xs2 =>
        (flattenPlanConfig env files ys).andThen fun ys2 => Run.ret (xs2 ++ ys2)
  | [] => by
    rw [List.nil_append, flattenPlanConfig_nil, Run.andThen_mk_ok]
    obtain ⟨rd, o⟩ := flattenPlanConfig env files ys
    cases o <;> simp [Run.andThen, Run.ret]
  | x :: xs => by
    rw [List.cons_append, flattenPlanConfig, flattenPlanConfig_append env files ys xs,
      flattenPlanConfig, Run.andThen_assoc]
    congr 1
    funext x2
    rw [Run.andThen_assoc, Run.andThen_assoc]
    congr 1
    funext xs2
    rw [Run.andThen_ret, Run.andThen_assoc]
    congr 1

/-- A returning run gives a sequence of the length of its input. -/
theorem flattenPlanConfig_ok_length (env : Env) (files : ResourceMap)
    (plan out : List PlanConfig) (rd : List String)
    (h : flattenPlanConfig env files plan = ⟨rd, .ok out⟩) : out.length = plan.length :=
  (sameShape_length plan out ((flatten_ok_all env files).2 plan rd out h).2).symm

/-- C14: flattening is compositional and stops at the first failure. The run
on `xs ++ ys` returns exactly when the runs on `xs` and on `ys` return, and
its output is then the concatenation of their outputs (its reads the
concatenation of their reads); when the run on `xs` does not return, the run
on `xs ++ ys` ends as it does, and `ys` is not entered. The run on a single
Aggregate step, or on a single Do step, with the nested sequence `g` returns
exactly when the run on `g` returns, and gives the same container around the
output for `g`. Hence the run on a step nested as Aggregate > Do > step
returns exactly when the run on that step returns, and gives the output of
that step at the same depth. -/
theorem flatten_compositional (env : Env) (files : ResourceMap) :
    (∀ (xs ys out : List PlanConfig) (rd : List String),
      flattenPlanConfig env files (xs ++ ys) = ⟨rd, .ok out⟩ ↔
        ∃ r1 xs2 r2 ys2, flattenPlanConfig env files xs = ⟨r1, .ok xs2⟩ ∧
          flattenPlanConfig env files ys = ⟨r2, .ok ys2⟩ ∧ out = xs2 ++ ys2 ∧ rd = r1 ++ r2) ∧
    (∀ (xs ys : List PlanConfig) (rd : List String) (msg : String),
      (flattenPlanConfig env files xs = ⟨rd, .fatal msg⟩ →
        flattenPlanConfig env files (xs ++ ys) = ⟨rd, .fatal msg⟩) ∧
      (flattenPlanConfig env files xs = ⟨rd, .panic msg⟩ →
        flattenPlanConfig env files (xs ++ ys) = ⟨rd, .panic msg⟩)) ∧
    (∀ (g : List PlanConfig) (d : Option (List PlanConfig)) (t c : String)
      (tc : Option TaskConfig) (r : String) (out : List PlanConfig) (rd : List String),
      flattenPlanConfig env files [.mk (some g) d t c tc r] = ⟨rd, .ok out⟩ ↔
        ∃ g2, flattenPlanConfig env files g = ⟨rd, .ok g2⟩ ∧ out = [.mk (some g2) d t c tc r]) ∧
    (∀ (g : List PlanConfig) (t c : String)
      (tc : Option TaskConfig) (r : String) (out : List PlanConfig) (rd : List String),
      flattenPlanConfig env files [.mk none (some g) t c tc r] = ⟨rd, .ok out⟩ ↔
        ∃ g2, flattenPlanConfig env files g = ⟨rd, .ok g2⟩ ∧ out = [.mk none (some g2) t c tc r]) ∧
    (∀ (s : PlanConfig) (d : Option (List PlanConfig)) (t c t2 c2 : String)
      (tc tc2 : Option TaskConfig) (r r2 : String) (out : List PlanConfig) (rd : List String),
      flattenPlanConfig env files [.mk (some [.mk none (some [s]) t2 c2 tc2 r2]) d t c tc r] =
          ⟨rd, .ok out⟩ ↔
        ∃ s2, flattenPlanConfig env files [s] = ⟨rd, .ok [s2]⟩ ∧
          out = [.mk (some [.mk none (some [s2]) t2 c2 tc2 r2]) d t c tc r]) := by
  have hagg : ∀ (g : List PlanConfig) (d : Option (List PlanConfig)) (t c : String)
      (tc : Option TaskConfig) (r : String) (out : List PlanConfig) (rd : List String),
      flattenPlanConfig env files [.mk (some g) d t c tc r] = ⟨rd, .ok out⟩ ↔
        ∃ g2, flattenPlanConfig env files g = ⟨rd, .ok g2⟩ ∧
          out = [.mk (some g2) d t c tc r] := by
    intro g d t c tc r out rd
    rw [flattenPlanConfig_cons_ok]
    constructor
    · rintro ⟨r1, s2, r2, ss2, h1, h2, hout, hrd⟩
      rw [flattenStep_aggregate_ok] at h1
      obtain ⟨g2, h3, h4⟩ := h1
      rw [flattenPlanConfig_nil] at h2
      injection h2 with h5 h6
      injection h6 with h6
      subst h5 h6 h4
      exact ⟨g2, by simpa [hrd] using h3, hout⟩
    · rintro ⟨g2, h1, hout⟩
      exact ⟨rd, _, [], [], (flattenStep_aggregate_ok env files g d t c tc r _ rd).2 ⟨g2, h1, rfl⟩,
        flattenPlanConfig_nil env files, hout, by simp⟩
  have hdo : ∀ (g : List PlanConfig) (t c : String)
      (tc : Option TaskConfig) (r : String) (out : List PlanConfig) (rd : List String),
      flattenPlanConfig env files [.mk none (some g) t c tc r] = ⟨rd, .ok out⟩ ↔
        ∃ g2, flattenPlanConfig env files g = ⟨rd, .ok g2⟩ ∧
          out = [.mk none (some g2) t c tc r] := by
    intro g t c tc r out rd
    rw [flattenPlanConfig_cons_ok]
    constructor
    · rintro ⟨r1, s2, r2, ss2, h1, h2, hout, hrd⟩
      rw [flattenStep_do_ok] at h1
      obtain ⟨g2, h3, h4⟩ := h1
      rw [flattenPlanConfig_nil] at h2
      injection h2 with h5 h6
      injection h6 with h6
      subst h5 h6 h4
      exact ⟨g2, by simpa [hrd] using h3, hout⟩
    · rintro ⟨g2, h1, hout⟩
      exact ⟨rd, _, [], [], (flattenStep_do_ok env files g t c tc r _ rd).2 ⟨g2, h1, rfl⟩,
        flattenPlanConfig_nil env files, hout, by simp⟩
  refine ⟨?_, ?_, hagg, hdo, ?_⟩
  · intro xs ys out rd
    rw [flattenPlanConfig_append, Run.andThen_eq_ok]
    constructor
    · rintro ⟨r1, xs2, r2, h1, h2, hrd⟩
      rw [Run.andThen_eq_ok] at h2
      obtain ⟨r3, ys2, r4, h3, h4, hrd2⟩ := h2
      rw [Run.ret_eq_ok] at h4
      obtain ⟨h5, h6⟩ := h4
      subst h5
      exact ⟨r1, xs2, r3, ys2, h1, h3, h6.symm, by simp [hrd, hrd2]⟩
    · rintro ⟨r1, xs2, r2, ys2, h1, h2, hout, hrd⟩
      refine ⟨r1, xs2, r2, h1, ?_, hrd⟩
      rw [h2, Run.andThen_mk_ok, hout]
      simp [Run.ret]
  · intro xs ys rd msg
    constructor
    · intro h
      rw [flattenPlanConfig_append, h, Run.andThen_mk_fatal]
    · intro h
      rw [flattenPlanConfig_append, h, Run.andThen_mk_panic]
  · intro s d t c t2 c2 tc tc2 r r2 out rd
    rw [hagg]
    constructor
    · rintro ⟨g2, h1, hout⟩
      rw [hdo] at h1
      obtain ⟨g3, h2, hg2⟩ := h1
      have hlen := flattenPlanConfig_ok_length env files [s] g3 rd h2
      match g3, hlen with
      | [s2], _ => exact ⟨s2, h2, by rw [hout, hg2]⟩
    · rintro ⟨s2, h1, hout⟩
      exact ⟨_, (hdo [s] t2 c2 tc2 r2 _ rd).2 ⟨[s2], h1, rfl⟩, hout⟩

/-- Witness of C14: the Task `build` nested as Aggregate > Do > Task is
flattened at its depth, from the run on the Task alone. -/
theorem flatten_compositional_witness :
    flattenPlanConfig demoEnv demoFiles
        [.mk (some [.mk none (some [taskFile "build" "ci/tasks/build.yml"]) "" "" none ""])
          none "" "" none ""] =
      ⟨["/opt/ci/tasks/build.yml", "/opt/ci/scripts/build.sh"],
        .ok [.mk (some [.mk none (some [.mk none none "build" ""
          (some ⟨⟨"sh", ["-c", demoRendered], ""⟩, "linux"⟩) ""]) "" "" none ""])
          none "" "" none ""]⟩ :=
  ((flatten_compositional demoEnv demoFiles).2.2.2.2 (taskFile "build" "ci/tasks/build.yml")
    none "" "" "" "" none none "" "" _ _).2
    ⟨.mk none none "build" "" (some ⟨⟨"sh", ["-c", demoRendered], ""⟩, "linux"⟩) "",
      by rfl, rfl⟩

/-! ## Steamroll -/

/-- A returning job loop gives, job by job and in order, the input job with
its plan replaced by the output of `flattenPlanConfig` on it. -/
theorem steamrollJobs_ok_get (env : Env) (files : ResourceMap) :
    ∀ (jobs out : List JobConfig) (rd : List String),
      steamrollJobs env files jobs = ⟨rd, .ok out⟩ →
        out.length = jobs.length ∧
        ∀ (i : Nat) (job : JobConfig), jobs.get? i = some job →
          ∃ rd2 plan2, flattenPlanConfig env files job.Plan = ⟨rd2, .ok plan2⟩ ∧
            out.get? i = some ⟨plan2, job.Rest⟩
  | [], out, rd, h => by
    simp only [steamrollJobs, Run.ret_eq_ok] at h
    rw [← h.2]
    exact ⟨rfl, fun i job hi => by simp at hi⟩
  | j :: js, out, rd, h => by
    rw [steamrollJobs, Run.andThen_eq_ok] at h
    obtain ⟨r1, plan2, r2, h1, h2, _⟩ := h
    rw [Run.andThen_eq_ok] at h2
    obtain ⟨r3, js2, r4, h3, h4, _⟩ := h2
    rw [Run.ret_eq_ok] at h4
    obtain ⟨hlen, hget⟩ := steamrollJobs_ok_get env files js js2 r3 h3
    rw [← h4.2]
    refine ⟨by simp [hlen], fun i job hi => ?_⟩
    cases i with
    | zero =>
      simp only [List.get?_cons_zero, Option.some.injEq] at hi
      subst hi
      exact ⟨r1, plan2, h1, rfl⟩
    | succ i =>
      simp only [List.get?_cons_succ] at hi
      exact hget i job hi

/-- C15: when `Steamroll` returns, the returned error is nil, the fields of
the config other than the jobs are those of the input, the jobs are as many
as in the input, and the job at each position is the input job at that
position with its plan replaced by the output of `flattenPlanConfig` on that
plan and its other fields unchanged. -/
theorem steamroll_returns_flattened_jobs (env : Env) (files : ResourceMap)
    (atcConfig newConfig : Config) (err : Option String) (rd : List String)
    (h : Steamroll env files atcConfig = ⟨rd, .ok (newConfig, err)⟩) :
    err = none ∧ newConfig.Rest = atcConfig.Rest ∧
      newConfig.Jobs.length = atcConfig.Jobs.length ∧
      ∀ (i : Nat) (job : JobConfig), atcConfig.Jobs.get? i = some job →
        ∃ rd2 plan2, flattenPlanConfig env files job.Plan = ⟨rd2, .ok plan2⟩ ∧
          newConfig.Jobs.get? i = some ⟨plan2, job.Rest⟩ := by
  rw [Steamroll, Run.andThen_eq_ok] at h
  obtain ⟨r1, jobs2, r2, h1, h2, _⟩ := h
  rw [Run.ret_eq_ok] at h2
  obtain ⟨_, h3⟩ := h2
  injection h3 with h4 h5
  obtain ⟨hlen, hget⟩ := steamrollJobs_ok_get env files atcConfig.Jobs jobs2 r1 h1
  subst h4
  exact ⟨h5.symm, rfl, hlen, hget⟩

/-- Witness of C15 on `demoPipeline`. -/
theorem steamroll_returns_flattened_jobs_witness :
    Steamroll demoEnv demoFiles demoPipeline =
        ⟨["/opt/ci/tasks/build.yml", "/opt/ci/scripts/build.sh", "/opt/ci/tasks/make.yml"],
          .ok (demoPipelineFlat, none)⟩ ∧
      demoPipelineFlat.Rest = demoPipeline.Rest ∧
      demoPipelineFlat.Jobs.length = demoPipeline.Jobs.length :=
  have h := steamroll_returns_flattened_jobs demoEnv demoFiles demoPipeline demoPipelineFlat none
    ["/opt/ci/tasks/build.yml", "/opt/ci/scripts/build.sh", "/opt/ci/tasks/make.yml"] (by rfl)
  ⟨by rfl, h.2.1, h.2.2.1⟩

/-! ## Home expansion and slicing in loadBytes -/

/-- The result of `loadBytes` depends on the resource map only through the
binding of the resource name of the path. -/
theorem loadBytes_congr (env : Env) (rm1 rm2 : ResourceMap) (path : String)
    (h : rm1.get (beforeFirstSeparator path) = rm2.get (beforeFirstSeparator path)) :
    loadBytes env rm1 path = loadBytes env rm2 path := by
  obtain ⟨rest, hs⟩ := stringsSplit_eq_cons path
  simp only [loadBytes, hs, h]

/-- A cleaned path that starts with the separator is not empty and starts
with the separator. -/
theorem filepathClean_rooted (p : String) (h : p.data.head? = some PathSeparator) :
    ∃ body, filepathClean p = String.mk (PathSeparator :: body) := by
  simp only [filepathClean, h, decide_True, ↓reduceIte]
  rw [if_neg (List.cons_ne_nil _ _)]
  exact ⟨_, rfl⟩

theorem filepathJoin_rooted (home d : String) (h : home.data.head? = some PathSeparator) :
    ∃ body, filepathJoin [home, d] = String.mk (PathSeparator :: body) := by
  obtain ⟨l⟩ := home
  cases l with
  | nil => simp at h
  | cons c cs =>
    simp only [List.head?_cons, Option.some.injEq] at h
    subst h
    have hne : (String.mk (PathSeparator :: cs)) ≠ "" := by
      intro hc
      have := congrArg String.data hc
      simp at this
    simp only [filepathJoin, hne, ↓reduceIte]
    exact filepathClean_rooted _ (by simp [List.intercalate])

/-- The call on a resource mapped to a root of the form `~/d`: the root is
replaced by `HOME` joined with `d`. -/
theorem loadBytes_home (env : Env) (rm : ResourceMap) (path d : String)
    (h : rm.get (beforeFirstSeparator path) = some ("~/" ++ d)) :
    loadBytes env rm path =
      ⟨[actualPathOf (filepathJoin [env.HOME, d]) path],
        .ok (env.ReadFile (actualPathOf (filepathJoin [env.HOME, d]) path))⟩ := by
  obtain ⟨rest, hs⟩ := stringsSplit_eq_cons path
  obtain ⟨l⟩ := d
  have hdata : ("~/" ++ String.mk l).data = '~' :: '/' :: l := rfl
  have hne : ("~/" ++ String.mk l) ≠ "" := by
    intro hc
    have := congrArg String.data hc
    rw [hdata] at this
    cases this
  have hpre : stringsHasPrefix ("~/" ++ String.mk l) "~" = true := by
    rw [stringsHasPrefix, hdata]
    rfl
  have hlen : ¬ ("~/" ++ String.mk l).length < 2 := by
    rw [String.length, hdata]
    simp
  have hdrop : String.mk (List.drop 2 ("~/" ++ String.mk l).data) = String.mk l := by
    rw [hdata]
    rfl
  simp only [loadBytes, hs, h, hne, hpre, hlen, hdrop, ↓reduceIte, actualPathOf]

/-- C12: home expansion. Let `HOME` be an absolute path, `rm1` a resource map
that binds `r` to `~/d`, and `rm2` a map that binds `r` to `HOME` joined with
`d` and agrees with `rm1` on every other name. Then `loadBytes` gives the same
result with both maps on every path, and on a path whose resource name is `r`
it reads the file at `HOME` joined with `d`, joined with the path stripped by
the code of the resource name. -/
theorem home_expansion (env : Env) (rm1 rm2 : ResourceMap) (r d path : String)
    (hhome : env.HOME.data.head? = some PathSeparator)
    (h1 : rm1.get r = some ("~/" ++ d))
    (h2 : rm2.get r = some (filepathJoin [env.HOME, d]))
    (hsame : ∀ k, k ≠ r → rm1.get k = rm2.get k) :
    loadBytes env rm1 path = loadBytes env rm2 path ∧
      (beforeFirstSeparator path = r →
        loadBytes env rm1 path =
          ⟨[filepathJoin [filepathJoin [env.HOME, d], stringsReplaceAllEmpty path r]],
            .ok (env.ReadFile
              (filepathJoin [filepathJoin [env.HOME, d], stringsReplaceAllEmpty path r]))⟩) := by
  have hr : beforeFirstSeparator path = r →
      loadBytes env rm1 path =
        ⟨[filepathJoin [filepathJoin [env.HOME, d], stringsReplaceAllEmpty path r]],
          .ok (env.ReadFile
            (filepathJoin [filepathJoin [env.HOME, d], stringsReplaceAllEmpty path r]))⟩ := by
    intro hb
    rw [loadBytes_home env rm1 path d (by rw [hb]; exact h1), actualPathOf, hb]
  refine ⟨?_, hr⟩
  by_cases hb : beforeFirstSeparator path = r
  · rw [hr hb]
    obtain ⟨body, hbody⟩ := filepathJoin_rooted env.HOME d hhome
    have hne : filepathJoin [env.HOME, d] ≠ "" := by
      rw [hbody]
      intro hc
      have := congrArg String.data hc
      simp at this
    have htilde : stringsHasPrefix (filepathJoin [env.HOME, d]) "~" = false := by
      rw [hbody]
      simp [stringsHasPrefix, List.isPrefixOf, PathSeparator]
    rw [loadBytes_plain env rm2 path (filepathJoin [env.HOME, d]) (by rw [hb]; exact h2)
      hne htilde, actualPathOf, hb]
  · exact loadBytes_congr env rm1 rm2 path (hsame _ hb)

/-- Witness of C12: with `HOME = /home/ci` and `r` mapped to `~/foo`, the path
`r/x` is read at `/home/ci/foo/x`, as with `r` mapped to `/home/ci/foo`. -/
theorem home_expansion_witness :
    loadBytes perlEnv (some [("r", "~/foo")]) "r/x" =
        loadBytes perlEnv (some [("r", "/home/ci/foo")]) "r/x" ∧
      loadBytes perlEnv (some [("r", "~/foo")]) "r/x" =
        ⟨["/home/ci/foo/x"], .ok (.ok "home file")⟩ :=
  ⟨(home_expansion perlEnv (some [("r", "~/foo")]) (some [("r", "/home/ci/foo")]) "r" "foo" "r/x"
    (by rfl) (by rfl) (by rfl) (fun k hk => by
      have hk2 : (k == "r") = false := by simpa using hk
      simp [ResourceMap.get, List.lookup, hk2])).1, by rfl⟩

/-- The only root on which `loadBytes` panics is the one-character root `~`. -/
theorem loadBytes_panics_iff (env : Env) (rm : ResourceMap) (path : String) :
    (∃ rd msg, loadBytes env rm path = ⟨rd, .panic msg⟩) ↔
      rm.get (beforeFirstSeparator path) = some "~" := by
  obtain ⟨rest, hs⟩ := stringsSplit_eq_cons path
  constructor
  · rintro ⟨rd, msg, h⟩
    cases hget : rm.get (beforeFirstSeparator path) with
    | none =>
      rw [loadBytes_unmapped env rm path (Or.inl hget)] at h
      injection h with _ h2
      cases h2
    | some root =>
      by_cases hne : root = ""
      · rw [loadBytes_unmapped env rm path (Or.inr (by rw [hget, hne]))] at h
        injection h with _ h2
        cases h2
      · simp only [loadBytes, hs, hget, hne, ↓reduceIte] at h
        by_cases ht : stringsHasPrefix root "~" = true
        · by_cases hl : root.length < 2
          · obtain ⟨l⟩ := root
            cases l with
            | nil => simp at hne
            | cons c cs =>
              cases cs with
              | nil =>
                have hc : '~' = c := by
                  simpa [stringsHasPrefix, List.isPrefixOf] using ht
                rw [← hc]
              | cons c2 cs2 =>
                simp only [String.length, List.length_cons] at hl
                omega
          · simp only [ht, hl, ↓reduceIte] at h
            injection h with _ h2
            cases h2
        · simp only [ht, Bool.false_eq_true, ↓reduceIte] at h
          injection h with _ h2
          cases h2
  · intro hget
    refine ⟨[], "slice bounds out of range [2:1]", ?_⟩
    have h1 : ("~" : String) ≠ "" := by decide
    have h2 : stringsHasPrefix "~" "~" = true := by decide
    have h3 : ("~" : String).length < 2 := by decide
    simp only [loadBytes, hs, hget, h1, h2, h3, ↓reduceIte]

/-- C19 (the code at a failing input): with the resource `r` mapped to the
root `~`, the call of `loadBytes` on the path `r/x` panics. The root passes
the test `strings.HasPrefix(resourcePath, "~")` and has length 1, so the slice
`resourcePath[2:]` is out of range; the call neither returns an error nor
reaches the file read. The index `[0]` of the split path is in range: the
split is never empty. -/
theorem loadBytes_panics_on_tilde_root :
    loadBytes perlEnv (some [("r", "~")]) "r/x" =
        ⟨[], .panic "slice bounds out of range [2:1]"⟩ ∧
      stringsHasPrefix "~" "~" = true ∧ ("~" : String).length = 1 ∧
      stringsSplit "r/x" PathSeparator = ["r", "x"] :=
  ⟨by rfl, by rfl, by rfl, by rfl⟩

/-! ## The command of a resolved Task -/

/-- The full account of a returning Task case with an external config path:
the config was loaded and parsed, and either its command holds no separator
and is installed as parsed, or the script was loaded and the command and the
arguments come from the registry. -/
theorem flattenTask_ok_resolved (env : Env) (files : ResourceMap)
    (a d : Option (List PlanConfig)) (t c : String) (tc : Option TaskConfig) (r : String)
    (s2 : PlanConfig) (rd : List String) (hc : c ≠ "")
    (h : flattenTask env files (.mk a d t c tc r) = ⟨rd, .ok s2⟩) :
    ∃ rd1 bytes C, loadBytes env files c = ⟨rd1, .ok (.ok bytes)⟩ ∧
      env.Unmarshal bytes = .ok C ∧
      ((stringsContains C.Run.Path '/' = false ∧ rd = rd1 ∧
          s2 = .mk a d t "" (some C) r) ∨
        (stringsContains C.Run.Path '/' = true ∧ ∃ rd2 S,
          loadBytes env files C.Run.Path = ⟨rd2, .ok (.ok S)⟩ ∧ rd = rd1 ++ rd2 ∧
          s2 = .mk a d t "" (some
            { C with Run := { C.Run with
                Path := (interpretersGet (filepathExt C.Run.Path)).Path,
                Args :=
                  if (interpretersGet (filepathExt C.Run.Path)).Template ≠ "" then
                    (interpretersGet (filepathExt C.Run.Path)).Args ++
                      [templateExecute (interpretersGet (filepathExt C.Run.Path)).Template ⟨S⟩]
                  else (interpretersGet (filepathExt C.Run.Path)).Args ++ [S] } }) r)) := by
  simp only [flattenTask, ne_eq, hc, not_false_eq_true, ↓reduceIte] at h
  split at h
  · injection h with _ h2; cases h2
  · rw [Run.andThen_eq_ok] at h
    obtain ⟨r1, loaded, r2, hload, h2, hrd⟩ := h
    cases loaded with
    | error e => injection h2 with _ h3; cases h3
    | ok bytes =>
      simp only at h2
      cases hu : env.Unmarshal bytes with
      | error e => rw [hu] at h2; injection h2 with _ h3; cases h3
      | ok parsed =>
        rw [hu] at h2
        simp only at h2
        refine ⟨r1, bytes, parsed, hload, hu, ?_⟩
        by_cases hsep : stringsContains parsed.Run.Path '/' = true
        · refine Or.inr ⟨hsep, ?_⟩
          simp only [hsep, ↓reduceIte] at h2
          rw [Run.andThen_eq_ok] at h2
          obtain ⟨r3, loaded2, r4, hscript, h4, hrd2⟩ := h2
          cases loaded2 with
          | error e => injection h4 with _ h5; cases h5
          | ok script =>
            simp only [Run.ret_eq_ok] at h4
            refine ⟨r3, script, hscript, ?_, h4.2.symm⟩
            rw [hrd, hrd2, h4.1, List.append_nil]
        · refine Or.inl ⟨by simpa using hsep, ?_⟩
          simp only [hsep, Bool.false_eq_true, ↓reduceIte, Run.ret_eq_ok] at h2
          exact ⟨by rw [hrd, h2.1, List.append_nil], h2.2.symm⟩

/-- The registry read for an extension that is not a key gives the zero
value of `interpreter`. -/
theorem interpretersGet_unregistered (ext : String)
    (h : ext ∉ ["", ".sh", ".rb", ".py", ".js"]) : interpretersGet ext = ⟨"", [], ""⟩ := by
  simp only [List.mem_cons, List.mem_singleton, List.not_mem_nil, or_false, not_or] at h
  obtain ⟨h1, h2, h3, h4, h5⟩ := h
  have b1 : (ext == "") = false := beq_eq_false_iff_ne.2 h1
  have b2 : (ext == ".sh") = false := beq_eq_false_iff_ne.2 h2
  have b3 : (ext == ".rb") = false := beq_eq_false_iff_ne.2 h3
  have b4 : (ext == ".py") = false := beq_eq_false_iff_ne.2 h4
  have b5 : (ext == ".js") = false := beq_eq_false_iff_ne.2 h5
  simp [interpretersGet, interpreters, List.lookup, b1, b2, b3, b4, b5]

/-- Every entry of the registry, and the zero entry given for a missing key,
has a command without a separator. -/
theorem interpretersGet_path (ext : String) :
    (interpretersGet ext).Path ∈ ["sh", "ruby", "python", "node", ""] ∧
      stringsContains (interpretersGet ext).Path '/' = false := by
  by_cases h1 : ext = ""
  · subst h1; exact ⟨by decide, by decide⟩
  by_cases h2 : ext = ".sh"
  · subst h2; exact ⟨by decide, by decide⟩
  by_cases h3 : ext = ".rb"
  · subst h3; exact ⟨by decide, by decide⟩
  by_cases h4 : ext = ".py"
  · subst h4; exact ⟨by decide, by decide⟩
  by_cases h5 : ext = ".js"
  · subst h5; exact ⟨by decide, by decide⟩
  rw [interpretersGet_unregistered ext (by simp [h1, h2, h3, h4, h5])]
  exact ⟨by decide, by decide⟩

/-- C16: a Task step whose parsed config has a `Run.Path` with a separator and
an extension that is not a key of the registry, the script resolving to the
text `S`. The read of the registry gives the zero descriptor without failing,
and flattening the step returns it with `Run.Path = ""` and `Run.Args = [S]`;
in every returning run over a sequence that holds the step, the output holds
that result at the position of the step. -/
theorem task_unregistered_extension (env : Env) (kvs : List (String × String))
    (t c : String) (tc : Option TaskConfig) (r : String)
    (bytes S : String) (C : TaskConfig) (rd1 rd2 : List String)
    (ht : t ≠ "") (hc : c ≠ "")
    (hload : loadBytes env (some kvs) c = ⟨rd1, .ok (.ok bytes)⟩)
    (hparse : env.Unmarshal bytes = .ok C)
    (hsep : stringsContains C.Run.Path '/' = true)
    (hext : filepathExt C.Run.Path ∉ ["", ".sh", ".rb", ".py", ".js"])
    (hscript : loadBytes env (some kvs) C.Run.Path = ⟨rd2, .ok (.ok S)⟩) :
    interpretersGet (filepathExt C.Run.Path) = ⟨"", [], ""⟩ ∧
      flattenPlanConfig env (some kvs) [.mk none none t c tc r] =
        ⟨rd1 ++ rd2, .ok [.mk none none t "" (some
          { C with Run := { C.Run with Path := "", Args := [S] } }) r]⟩ ∧
      ∀ (pre post out : List PlanConfig) (rd : List String),
        flattenPlanConfig env (some kvs) (pre ++ .mk none none t c tc r :: post) = ⟨rd, .ok out⟩ →
          out.get? pre.length = some (.mk none none t "" (some
            { C with Run := { C.Run with Path := "", Args := [S] } }) r) := by
  have hzero := interpretersGet_unregistered (filepathExt C.Run.Path) hext
  have hstep : flattenStep env (some kvs) (.mk none none t c tc r) =
      ⟨rd1 ++ rd2, .ok (.mk none none t "" (some
        { C with Run := { C.Run with Path := "", Args := [S] } }) r)⟩ := by
    rw [flattenStep_task env (some kvs) t c tc r ht,
      flattenTask_script env kvs none none t c tc r bytes S C rd1 rd2 hc hload hparse hsep hscript,
      hzero]
    simp
  refine ⟨hzero, flattenPlanConfig_single env (some kvs) _ _ _ hstep, ?_⟩
  intro pre post out rd h
  obtain ⟨r1, s2, h1, h2⟩ := flattenPlanConfig_at env (some kvs) _ pre post out rd h
  rw [hstep] at h1
  injection h1 with _ h3
  injection h3 with h3
  rw [h2, h3]

/-- Witness of C16: the script `ci/scripts/report.pl` with the contents
`print 1;`; the output has an empty command and the script as its only
argument. -/
theorem task_unregistered_extension_witness :
    flattenPlanConfig perlEnv (some [("ci", "/opt/ci")])
        [.mk none none "report" "ci/tasks/report.yml" none ""] =
      ⟨["/opt/ci/tasks/report.yml"] ++ ["/opt/ci/scripts/report.pl"],
        .ok [.mk none none "report" "" (some
          { (⟨⟨"ci/scripts/report.pl", ["all"], ""⟩, "linux"⟩ : TaskConfig) with
            Run := { (⟨"ci/scripts/report.pl", ["all"], ""⟩ : TaskRunConfig) with
              Path := "", Args := ["print 1;"] } }) ""]⟩ :=
  (task_unregistered_extension perlEnv [("ci", "/opt/ci")] "report" "ci/tasks/report.yml" none ""
    "run:\n  path: ci/scripts/report.pl\n  args: [all]" "print 1;"
    ⟨⟨"ci/scripts/report.pl", ["all"], ""⟩, "linux"⟩
    ["/opt/ci/tasks/report.yml"] ["/opt/ci/scripts/report.pl"]
    (by decide) (by decide) (by rfl) (by rfl) (by rfl) (by decide) (by rfl)).2.1

/-! ## Absolute commands -/

theorem beforeFirstSeparator_rooted (path : String)
    (h : path.data.head? = some PathSeparator) : beforeFirstSeparator path = "" := by
  obtain ⟨l⟩ := path
  cases l with
  | nil => simp at h
  | cons c cs =>
    simp only [List.head?_cons, Option.some.injEq] at h
    subst h
    simp [beforeFirstSeparator]

theorem stringsContains_rooted (path : String)
    (h : path.data.head? = some PathSeparator) : stringsContains path '/' = true := by
  obtain ⟨l⟩ := path
  cases l with
  | nil => simp at h
  | cons c cs =>
    simp only [List.head?_cons, Option.some.injEq] at h
    subst h
    simp [stringsContains, PathSeparator]

/-- C18: a Task step with a non-empty external config path whose parsed
config has a `Run.Path` that begins with the separator. The script lookup
splits the path into a first element that is the empty string, so the resource
name is empty; when the resource map has no entry, or an empty entry, for the
empty name, flattening the step exits through `log.Fatalf`, after the read of
the config alone; and whenever flattening the step returns, the installed
command holds no separator, so the absolute path is not left in place. -/
theorem absolute_run_path_needs_empty_resource (env : Env) (kvs : List (String × String))
    (t c : String) (tc : Option TaskConfig) (r : String)
    (bytes : String) (C : TaskConfig) (rd1 : List String)
    (ht : t ≠ "") (hc : c ≠ "")
    (hload : loadBytes env (some kvs) c = ⟨rd1, .ok (.ok bytes)⟩)
    (hparse : env.Unmarshal bytes = .ok C)
    (habs : C.Run.Path.data.head? = some PathSeparator) :
    (stringsSplit C.Run.Path PathSeparator).head? = some "" ∧
      ((kvs.lookup "" = none ∨ kvs.lookup "" = some "") →
        flattenPlanConfig env (some kvs) [.mk none none t c tc r] =
          ⟨rd1, .fatal ("failed to read task config at " ++ C.Run.Path ++ ": " ++
            ("no resource map provided for " ++ C.Run.Path))⟩) ∧
      ∀ (rd : List String) (out : List PlanConfig),
        flattenPlanConfig env (some kvs) [.mk none none t c tc r] = ⟨rd, .ok out⟩ →
          ∃ C2, out = [.mk none none t "" (some C2) r] ∧
            stringsContains C2.Run.Path '/' = false ∧ C2.Run.Path ≠ C.Run.Path := by
  have hname := beforeFirstSeparator_rooted C.Run.Path habs
  have hsep := stringsContains_rooted C.Run.Path habs
  refine ⟨?_, ?_, ?_⟩
  · obtain ⟨rest, hs⟩ := stringsSplit_eq_cons C.Run.Path
    rw [hs, hname]
    rfl
  · intro hmap
    have hscript := loadBytes_unmapped env (some kvs) C.Run.Path
      (by rw [hname]; simpa [ResourceMap.get] using hmap)
    rw [flattenPlanConfig, flattenStep_task env (some kvs) t c tc r ht]
    simp [flattenTask, hc, hload, Run.andThen_mk_ok, hparse, hsep, hscript, Run.andThen]
  · intro rd out h
    rw [flattenPlanConfig_cons_ok] at h
    obtain ⟨r1, s2, r2, ss2, h1, h2, hout, _⟩ := h
    rw [flattenPlanConfig_nil] at h2
    injection h2 with _ h3
    injection h3 with h3
    subst h3
    rw [flattenStep_task env (some kvs) t c tc r ht] at h1
    obtain ⟨rd1b, bytes2, C2, hload2, hparse2, hcase⟩ :=
      flattenTask_ok_resolved env (some kvs) none none t c tc r s2 r1 hc h1
    rw [hload] at hload2
    injection hload2 with _ h4
    injection h4 with h4
    injection h4 with h4
    subst h4
    rw [hparse] at hparse2
    injection hparse2 with h5
    subst h5
    rcases hcase with ⟨hbare, _, _⟩ | ⟨_, rd2, S, _, _, hs2⟩
    · rw [hsep] at hbare
      cases hbare
    · have hp := (interpretersGet_path (filepathExt C.Run.Path)).2
      refine ⟨_, by rw [hout, hs2], hp, ?_⟩
      intro heq
      simp only at heq
      rw [heq, hsep] at hp
      cases hp

/-- Witness of C18: the task `shell` of `perlEnv`, whose config names the
command `/bin/sh`, with a map that binds only `ci`. -/
theorem absolute_run_path_needs_empty_resource_witness :
    flattenPlanConfig perlEnv (some [("ci", "/opt/ci")])
        [.mk none none "shell" "ci/tasks/shell.yml" none ""] =
      ⟨["/opt/ci/tasks/shell.yml"], .fatal ("failed to read task config at " ++
        (⟨⟨"/bin/sh", [], ""⟩, "linux"⟩ : TaskConfig).Run.Path ++ ": " ++
        ("no resource map provided for " ++
          (⟨⟨"/bin/sh", [], ""⟩, "linux"⟩ : TaskConfig).Run.Path))⟩ :=
  (absolute_run_path_needs_empty_resource perlEnv [("ci", "/opt/ci")] "shell"
    "ci/tasks/shell.yml" none "" "run:\n  path: /bin/sh" ⟨⟨"/bin/sh", [], ""⟩, "linux"⟩
    ["/opt/ci/tasks/shell.yml"] (by decide) (by decide) (by rfl) (by rfl) (by rfl)).2.1
    (Or.inl (by rfl))

/-! ## Relations between the input and the output of a run -/

/-- A relation that holds between every container and the same container
around another sequence, and between every leaf and the step that the loop
body returns for it, holds place by place between the input and the output of
every returning run. -/
theorem flatten_walkedPair (env : Env) (files : ResourceMap)
    (p : PlanConfig → PlanConfig → Prop)
    (hagg : ∀ xs xs2 d t c tc r, p (.mk (some xs) d t c tc r) (.mk (some xs2) d t c tc r))
    (hdo : ∀ ys ys2 t c tc r, p (.mk none (some ys) t c tc r) (.mk none (some ys2) t c tc r))
    (hleaf : ∀ t c tc r rd s2, flattenStep env files (.mk none none t c tc r) = ⟨rd, .ok s2⟩ →
      p (.mk none none t c tc r) s2) :
    (∀ s rd s2, flattenStep env files s = ⟨rd, .ok s2⟩ → walkedPairStep p s s2) ∧
    (∀ ss rd ss2, flattenPlanConfig env files ss = ⟨rd, .ok ss2⟩ → walkedPair p ss ss2) := by
  apply PlanConfig.induction
  · intro rd ss2 h
    rw [flattenPlanConfig_nil] at h
    injection h with _ h2
    injection h2 with h2
    subst h2
    simp [walkedPair]
  · intro s ss hs hss rd out h
    rw [flattenPlanConfig_cons_ok] at h
    obtain ⟨r1, s2, r2, ss2, h1, h2, hout, _⟩ := h
    subst hout
    rw [walkedPair]
    exact ⟨hs r1 s2 h1, hss r2 ss2 h2⟩
  · intro a d t c tc r ha hd rd s2 h
    cases a with
    | some xs =>
      rw [flattenStep_aggregate_ok] at h
      obtain ⟨xs2, h1, h2⟩ := h
      subst h2
      rw [walkedPairStep]
      exact ⟨hagg xs xs2 d t c tc r, xs2, rfl, ha xs rfl rd xs2 h1⟩
    | none =>
      cases d with
      | some ys =>
        rw [flattenStep_do_ok] at h
        obtain ⟨ys2, h1, h2⟩ := h
        subst h2
        rw [walkedPairStep]
        exact ⟨hdo ys ys2 t c tc r, ys2, rfl, hd ys rfl rd ys2 h1⟩
      | none =>
        rw [walkedPairStep]
        exact hleaf t c tc r rd s2 h

theorem walkedPairStep_head (p : PlanConfig → PlanConfig → Prop) (s s2 : PlanConfig)
    (h : walkedPairStep p s s2) : p s s2 := by
  obtain ⟨a, d, t, c, tc, r⟩ := s
  cases a with
  | some xs => rw [walkedPairStep] at h; exact h.1
  | none =>
    cases d with
    | some ys => rw [walkedPairStep] at h; exact h.1
    | none => rw [walkedPairStep] at h; exact h

/-- Place by place: the related sequences have steps at the same positions,
and those steps are related. -/
theorem walkedPair_get (p : PlanConfig → PlanConfig → Prop) :
    ∀ (xs ys : List PlanConfig), walkedPair p xs ys →
      ∀ (i : Nat) (s : PlanConfig), xs.get? i = some s →
        ∃ s2, ys.get? i = some s2 ∧ walkedPairStep p s s2
  | [], [], _, i, s, h1 => by simp at h1
  | x :: xs, y :: ys, h, i, s, h1 => by
    rw [walkedPair] at h
    cases i with
    | zero =>
      simp only [List.get?_cons_zero, Option.some.injEq] at h1
      subst h1
      exact ⟨y, rfl, h.1⟩
    | succ i =>
      simp only [List.get?_cons_succ] at h1
      exact walkedPair_get p xs ys h.2 i s h1
  | [], _ :: _, h, _, _, _ => by simp [walkedPair] at h
  | _ :: _, [], h, _, _, _ => by simp [walkedPair] at h

/-- The loop body on a leaf that is not a Task with an external config path
returns the leaf. -/
theorem flattenStep_leaf_kept (env : Env) (files : ResourceMap) (t c : String)
    (tc : Option TaskConfig) (r : String) (rd : List String) (s2 : PlanConfig)
    (hkeep : t = "" ∨ c = "")
    (h : flattenStep env files (.mk none none t c tc r) = ⟨rd, .ok s2⟩) :
    s2 = .mk none none t c tc r := by
  rw [flattenStep] at h
  by_cases ht : t = ""
  · simp only [ht, ne_eq, not_true_eq_false, ↓reduceIte, Run.ret_eq_ok] at h
    rw [← h.2, ht]
  · have hc : c = "" := hkeep.resolve_left ht
    subst hc
    simp only [ne_eq, ht, not_false_eq_true, ↓reduceIte, flattenTask_inline] at h
    injection h with _ h2
    injection h2 with h2
    exact h2.symm

/-- C13: the frame of flattening. On every returning run of
`flattenPlanConfig`, place by place over the steps that the walk visits at
every nesting level (`walkedPair framedBy`): a Task with an empty external
config path and a step of any other kind (no Aggregate, no Do, no task name)
is in the output the input step itself, with its inline task config and its
`Run.Path` whatever that holds; an Aggregate or Do container keeps every field
but the sequence it is walked through. In particular the top sequence of the
output holds, at the position of every such Task or other step, that step
unchanged. -/
theorem flatten_frame (env : Env) (files : ResourceMap)
    (plan out : List PlanConfig) (rd : List String)
    (h : flattenPlanConfig env files plan = ⟨rd, .ok out⟩) :
    walkedPair framedBy plan out ∧
      ∀ (i : Nat) (s : PlanConfig), plan.get? i = some s →
        ((s.kind = .Task ∧ s.TaskConfigPath = "") ∨ s.kind = .other) →
          out.get? i = some s := by
  have hall : walkedPair framedBy plan out := by
    refine (flatten_walkedPair env files framedBy ?_ ?_ ?_).2 plan rd out h
    · intro xs xs2 d t c tc r
      simp [framedBy, PlanConfig.kind, PlanConfig.Aggregate, PlanConfig.Do, PlanConfig.Task,
        PlanConfig.TaskConfigPath, PlanConfig.TaskConfig, PlanConfig.Rest]
    · intro ys ys2 t c tc r
      simp [framedBy, PlanConfig.kind, PlanConfig.Aggregate, PlanConfig.Do, PlanConfig.Task,
        PlanConfig.TaskConfigPath, PlanConfig.TaskConfig, PlanConfig.Rest]
    · intro t c tc r rd2 s2 hstep
      by_cases ht : t = ""
      · have := flattenStep_leaf_kept env files t c tc r rd2 s2 (Or.inl ht) hstep
        simp [framedBy, PlanConfig.kind, ht, this]
      · simp only [framedBy, PlanConfig.kind, ne_eq, ht, not_false_eq_true, ↓reduceIte,
          PlanConfig.TaskConfigPath]
        intro hc
        exact flattenStep_leaf_kept env files t c tc r rd2 s2 (Or.inr hc) hstep
  refine ⟨hall, ?_⟩
  intro i s hi hkind
  obtain ⟨s2, h2, hpair⟩ := walkedPair_get framedBy plan out hall i s hi
  have hframe := walkedPairStep_head framedBy s s2 hpair
  rw [h2]
  rcases hkind with ⟨hk, hc⟩ | hk
  · simp only [framedBy, hk] at hframe
    rw [hframe hc]
  · simp only [framedBy, hk] at hframe
    rw [hframe]

/-- Witness of C13 on `demoPlan`: the get step and the Task `lint`, whose
inline config names the script path `ci/scripts/lint.sh`, come out unchanged. -/
theorem flatten_frame_witness :
    flattenPlanConfig demoEnv demoFiles demoPlan =
        ⟨["/opt/ci/tasks/build.yml", "/opt/ci/scripts/build.sh"], .ok demoFlat⟩ ∧
      demoFlat.get? 2 = some lintTask ∧
      demoFlat.get? 0 = some (.mk none none "" "" none "get: ci") :=
  have h := flatten_frame demoEnv demoFiles demoPlan demoFlat
    ["/opt/ci/tasks/build.yml", "/opt/ci/scripts/build.sh"] (by rfl)
  ⟨by rfl, h.2 2 lintTask (by rfl) (Or.inl ⟨by decide, by rfl⟩),
    h.2 0 (.mk none none "" "" none "get: ci") (by rfl) (Or.inr (by decide))⟩

/-! ## The command after flattening -/

/-- C11 (counterexample): two returning runs whose output holds a Task with a
task config and a `Run.Path` that is not a bare executable of the registry.
The Task `lint` has an inline config with the script path
`ci/scripts/lint.sh`; it has no external config path, so it is returned as it
is, with the separator in its `Run.Path`. The Task `make` has an external
config that names the bare command `make`, which is installed as parsed and is
not one of `sh`, `ruby`, `python`, `node`. -/
theorem inline_and_bare_commands_kept :
    (flattenPlanConfig demoEnv demoFiles [lintTask] = ⟨[], .ok [lintTask]⟩ ∧
      walked (fun s => s.kind ≠ .Task || knownInterpreter s) [lintTask] = false ∧
      walked (fun s => s.kind ≠ .Task || bareRunPath s) [lintTask] = false) ∧
    (flattenPlanConfig demoEnv demoFiles [taskFile "make" "ci/tasks/make.yml"] =
        ⟨["/opt/ci/tasks/make.yml"],
          .ok [.mk none none "make" "" (some ⟨⟨"make", ["all"], ""⟩, "linux"⟩) ""]⟩ ∧
      walked (fun s => s.kind ≠ .Task || knownInterpreter s)
        [.mk none none "make" "" (some ⟨⟨"make", ["all"], ""⟩, "linux"⟩) ""] = false) :=
  ⟨⟨by rfl, by decide, by decide⟩, by rfl, by decide⟩

/-- C11 (amended): on every returning run of `flattenPlanConfig`, place by
place over the steps that the walk visits at every nesting level, the output
step of every Task with a non-empty external config path carries a task
config whose `Run.Path` holds no path separator. -/
theorem resolved_tasks_have_bare_command (env : Env) (files : ResourceMap)
    (plan out : List PlanConfig) (rd : List String)
    (h : flattenPlanConfig env files plan = ⟨rd, .ok out⟩) :
    walkedPair resolvedBare plan out := by
  refine (flatten_walkedPair env files resolvedBare ?_ ?_ ?_).2 plan rd out h
  · intro xs xs2 d t c tc r hneed
    simp [needsConfig_mk] at hneed
  · intro ys ys2 t c tc r hneed
    simp [needsConfig_mk] at hneed
  · intro t c tc r rd2 s2 hstep hneed
    simp only [needsConfig_mk, Option.isNone_none, Bool.true_and, Bool.and_eq_true,
      decide_eq_true_eq] at hneed
    obtain ⟨ht, hc⟩ := hneed
    rw [flattenStep_task env files t c tc r ht] at hstep
    obtain ⟨rd1, bytes, C, _, _, hcase⟩ :=
      flattenTask_ok_resolved env files none none t c tc r s2 rd2 hc hstep
    rcases hcase with ⟨hbare, _, hs2⟩ | ⟨_, rd3, S, _, _, hs2⟩
    · rw [hs2]
      simp [bareRunPath, PlanConfig.TaskConfig, hbare]
    · rw [hs2]
      simp [bareRunPath, PlanConfig.TaskConfig,
        (interpretersGet_path (filepathExt C.Run.Path)).2]

/-- Witness of C11 (amended) on `demoPlan`. -/
theorem resolved_tasks_have_bare_command_witness :
    flattenPlanConfig demoEnv demoFiles demoPlan =
        ⟨["/opt/ci/tasks/build.yml", "/opt/ci/scripts/build.sh"], .ok demoFlat⟩ ∧
      walkedPair resolvedBare demoPlan demoFlat :=
  ⟨by rfl, resolved_tasks_have_bare_command demoEnv demoFiles demoPlan demoFlat
    ["/opt/ci/tasks/build.yml", "/opt/ci/scripts/build.sh"] (by rfl)⟩

/-! ## Termination and the depth of the recursion -/

theorem Run.andThenWithin_some {α β : Type} (r : Run α) (k : α → Option (Run β))
    (k2 : α → Run β) (h : ∀ a, k a = some (k2 a)) :
    r.andThenWithin k = some (r.andThen k2) := by
  obtain ⟨rd, o⟩ := r
  cases o <;> simp [Run.andThenWithin, Run.andThen, h]

/-- With as much fuel as the tree is deep the bounded run never needs a call
that it cannot make, and it is the run of `flattenPlanConfig`. -/
theorem flatten_within_all (env : Env) (files : ResourceMap) :
    (∀ s fuel, depthStep s ≤ fuel →
      flattenStepWithin env files fuel s = some (flattenStep env files s)) ∧
    (∀ ss fuel, depthSeq ss ≤ fuel →
      flattenPlanConfigWithin env files fuel ss = some (flattenPlanConfig env files ss)) := by
  apply PlanConfig.induction
  · intro fuel _
    rw [flattenPlanConfigWithin, flattenPlanConfig]
  · intro s ss hs hss fuel h
    simp only [depthSeq, max_le_iff] at h
    rw [flattenPlanConfigWithin, hs fuel h.1, Option.some_bind, flattenPlanConfig]
    exact Run.andThenWithin_some _ _ _ (fun step2 => by rw [hss fuel h.2]; rfl)
  · intro a d t c tc r ha hd fuel h
    simp only [depthStep, max_le_iff] at h
    cases a with
    | some xs =>
      cases fuel with
      | zero => simp [depthOpt] at h
      | succ n =>
        simp only [depthOpt, Nat.add_le_add_iff_right] at h
        rw [flattenStepWithin, ha xs rfl n h.1, flattenStep]
        rfl
    | none =>
      cases d with
      | some ys =>
        cases fuel with
        | zero => simp [depthOpt] at h
        | succ n =>
          simp only [depthOpt, Nat.add_le_add_iff_right] at h
          rw [flattenStepWithin, hd ys rfl n h.2, flattenStep]
          rfl
      | none =>
        rw [flattenStepWithin, flattenStep]
        by_cases ht : t = "" <;> simp [ht]

/-- C17: `flattenPlanConfig` is a total function of the environment, the
resource map and the plan, and its recursion is no deeper than the tree. The
run in which every call on the sequence of an Aggregate or Do step uses one
unit of fuel, and Task and other steps use none, ends within any fuel that is
at least the depth of the plan, with the result of `flattenPlanConfig`. -/
theorem flatten_terminates_within_depth (env : Env) (files : ResourceMap)
    (plan : List PlanConfig) (fuel : Nat) (h : depthSeq plan ≤ fuel) :
    flattenPlanConfigWithin env files fuel plan = some (flattenPlanConfig env files plan) :=
  (flatten_within_all env files).2 plan fuel h

/-- Witness of C17 on `demoPlan`, of depth 2. -/
theorem flatten_terminates_within_depth_witness :
    depthSeq demoPlan ≤ 2 ∧
      flattenPlanConfigWithin demoEnv demoFiles 2 demoPlan =
        some (flattenPlanConfig demoEnv demoFiles demoPlan) :=
  ⟨by decide, flatten_terminates_within_depth demoEnv demoFiles demoPlan 2 (by decide)⟩

end Steamroller
